import Mathlib

/-!
# A shallow embedding of the `opencode-codex-provider` core

This file embeds the two core components of the repository and proves the
stated properties about them:

* the **stream adapter** of `src/codexProvider.ts` (`doStream`'s closure state
  machine: channel framing, text/reasoning de-duplication, incremental-diff
  logic, idempotent finalization), and
* the **MCP transport/correlator client** `CodexMCPClient` of
  `src/codexClient.ts` (request-id assignment, response matching by string
  key, cancellation, transport-fatal error handling),

together with the pure helpers of `src/utils.ts` (`isLikelyText`,
`decodeExecChunk`, `sharedPrefixLength`).

JavaScript strings manipulated character-by-character by the adapter are
modelled as `List Char`; the client's opaque message payloads are modelled as
Lean `String`s.  JavaScript iterates UTF-16 code units where we iterate code
points; no property below distinguishes the two (no claim hinges on
surrogate-pair behaviour).
-/

namespace Codex

/-! ## String helpers (from `src/utils.ts` and the `doStream` closure) -/

/-- JavaScript's `\s` character class as used by `trim()` and
`replace(/\s+/g, …)`: ASCII whitespace plus NBSP and BOM.  (The remaining
Unicode space separators behave identically and never occur in any property
below.) -/
def isJsSpace (c : Char) : Bool :=
  c = ' ' || c = '\t' || c = '\n' || c = '\r' || c = '\x0B' || c = '\x0C' ||
    c = '\u00A0' || c = '\uFEFF'

/-- JavaScript `String.prototype.trim`: drop leading and trailing whitespace. -/
def jsTrim (s : List Char) : List Char :=
  ((s.dropWhile isJsSpace).reverse.dropWhile isJsSpace).reverse

/-- Recursion worker for `collapseWs`. -/
def collapseWsAux : Nat → List Char → List Char
  | 0, _ => []
  | _ + 1, [] => []
  | fuel + 1, c :: rest =>
    if isJsSpace c then ' ' :: collapseWsAux fuel (rest.dropWhile isJsSpace)
    else c :: collapseWsAux fuel rest

/-- `replace(/\s+/g, " ")`: collapse every maximal whitespace run to one
space.  (The fuel argument only serves structural termination; each step
consumes at least one character, so `fuel = length` is always enough.) -/
def collapseWs (l : List Char) : List Char := collapseWsAux l.length l

/-- `normalizeReasoning` (codexProvider.ts line 218):
`value.trim().replace(/\*/g, "").replace(/\s+/g, " ")`. -/
def normalizeReasoning (value : List Char) : List Char :=
  collapseWs ((jsTrim value).filter (fun c => c ≠ '*'))

/-- `sharedPrefixLength` (codexProvider.ts lines 202-209): the length of the
longest common leading-character run. -/
def sharedPrefixLength : List Char → List Char → Nat
  | a :: as, b :: bs => if a = b then sharedPrefixLength as bs + 1 else 0
  | _, _ => 0

/-- `isLikelyText` (utils.ts lines 125-134): every character is `≥ 0x20` or
tab/newline/carriage-return, and never U+FFFD. -/
def isLikelyText (value : List Char) : Bool :=
  value.all fun c =>
    decide (c.toNat ≠ 0xfffd ∧
      (0x20 ≤ c.toNat ∨ c.toNat = 0x09 ∨ c.toNat = 0x0a ∨ c.toNat = 0x0d))

/-- A character of the strict base64 alphabet `[A-Za-z0-9+/]`. -/
def isBase64Char (c : Char) : Bool :=
  decide ((65 ≤ c.toNat ∧ c.toNat ≤ 90) ∨ (97 ≤ c.toNat ∧ c.toNat ≤ 122) ∨
    (48 ≤ c.toNat ∧ c.toNat ≤ 57) ∨ c.toNat = 43 ∨ c.toNat = 47)

/-- The regular expression `/^[A-Za-z0-9+/]+={0,2}$/` of `decodeExecChunk`:
one or more alphabet characters followed by zero to two `=`. -/
def base64PatternTest (l : List Char) : Bool :=
  let body := l.takeWhile isBase64Char
  let pad := l.drop body.length
  decide (1 ≤ body.length) && decide (pad.length ≤ 2) && pad.all (· = '=')

/-- Value of a base64 alphabet character (callers only apply this to
pattern-validated input; `=` and out-of-alphabet characters map to 63). -/
def b64Val (c : Char) : Nat :=
  if 65 ≤ c.toNat ∧ c.toNat ≤ 90 then c.toNat - 65
  else if 97 ≤ c.toNat ∧ c.toNat ≤ 122 then c.toNat - 97 + 26
  else if 48 ≤ c.toNat ∧ c.toNat ≤ 57 then c.toNat - 48 + 52
  else if c.toNat = 43 then 62
  else 63

/-- Base64 decoding of a pattern-validated string (`Buffer.from(s, "base64")`):
groups of four characters yield three bytes; a trailing `xy==` group yields
one byte and `xyz=` two, non-canonical trailing bits silently dropped, exactly
as Node does.  On validated input `=` occurs only in the final group. -/
def b64DecodeGroups : List Char → List Nat
  | c1 :: c2 :: c3 :: c4 :: rest =>
    let v1 := b64Val c1
    let v2 := b64Val c2
    if c3 = '=' then [v1 * 4 + v2 / 16]
    else
      let v3 := b64Val c3
      if c4 = '=' then [v1 * 4 + v2 / 16, (v2 % 16) * 16 + v3 / 4]
      else (v1 * 4 + v2 / 16) :: ((v2 % 16) * 16 + v3 / 4) ::
        ((v3 % 4) * 64 + b64Val c4) :: b64DecodeGroups rest
  | _ => []

/-- Is a byte a UTF-8 continuation byte (`0x80`–`0xBF`)? -/
def isCont (b : Nat) : Bool := decide (0x80 ≤ b ∧ b ≤ 0xbf)

/-- One step of strict UTF-8 decoding with U+FFFD replacement
(`buffer.toString("utf-8")`).  The fuel argument only serves structural
termination; each step consumes at least one byte, so `fuel = length` is
always enough.  Overlong encodings, surrogates and out-of-range sequences are
malformed and produce a replacement character, as in Node; only the
*presence* of U+FFFD is ever observed (via `isLikelyText`), so the exact
count of replacement characters per malformed run is immaterial. -/
def utf8DecodeAux : Nat → List Nat → List Char
  | 0, _ => []
  | _ + 1, [] => []
  | fuel + 1, b1 :: rest =>
    if b1 < 0x80 then
      Char.ofNat b1 :: utf8DecodeAux fuel rest
    else if 0xc2 ≤ b1 ∧ b1 ≤ 0xdf then
      match rest with
      | b2 :: rest2 =>
        if isCont b2 then
          Char.ofNat ((b1 - 0xc0) * 64 + (b2 - 0x80)) :: utf8DecodeAux fuel rest2
        else '�' :: utf8DecodeAux fuel rest
      | [] => ['�']
    else if 0xe0 ≤ b1 ∧ b1 ≤ 0xef then
      match rest with
      | b2 :: rest2 =>
        let lo := if b1 = 0xe0 then 0xa0 else 0x80
        let hi := if b1 = 0xed then 0x9f else 0xbf
        if lo ≤ b2 ∧ b2 ≤ hi then
          match rest2 with
          | b3 :: rest3 =>
            if isCont b3 then
              Char.ofNat ((b1 - 0xe0) * 4096 + (b2 - 0x80) * 64 + (b3 - 0x80)) ::
                utf8DecodeAux fuel rest3
            else '�' :: utf8DecodeAux fuel rest2
          | [] => ['�']
        else '�' :: utf8DecodeAux fuel rest
      | [] => ['�']
    else if 0xf0 ≤ b1 ∧ b1 ≤ 0xf4 then
      match rest with
      | b2 :: rest2 =>
        let lo := if b1 = 0xf0 then 0x90 else 0x80
        let hi := if b1 = 0xf4 then 0x8f else 0xbf
        if lo ≤ b2 ∧ b2 ≤ hi then
          match rest2 with
          | b3 :: rest3 =>
            if isCont b3 then
              match rest3 with
              | b4 :: rest4 =>
                if isCont b4 then
                  Char.ofNat ((b1 - 0xf0) * 262144 + (b2 - 0x80) * 4096 +
                    (b3 - 0x80) * 64 + (b4 - 0x80)) :: utf8DecodeAux fuel rest4
                else '�' :: utf8DecodeAux fuel rest3
              | [] => ['�']
            else '�' :: utf8DecodeAux fuel rest2
          | [] => ['�']
        else '�' :: utf8DecodeAux fuel rest
      | [] => ['�']
    else '�' :: utf8DecodeAux fuel rest

/-- Decode a byte list as UTF-8 with replacement characters. -/
def utf8Decode (bs : List Nat) : List Char := utf8DecodeAux bs.length bs

/-- `decodeExecChunk` (utils.ts lines 136-153, duplicated verbatim inside
`doStream`): strip whitespace; if the remainder has positive length, a
multiple of 4, and matches the base64 pattern, base64-decode it and use the
decoded text when it is non-empty likely-text; otherwise fall back to the raw
chunk when that is likely-text; otherwise drop (`null`).  (`Buffer.from`
never throws on pattern-validated input, so the source's `try`/`catch` is
inert.) -/
def decodeExecChunk (raw : List Char) : Option (List Char) :=
  if raw = [] then none
  else
    let compressed := raw.filter fun c => !(isJsSpace c)
    if 0 < compressed.length ∧ compressed.length % 4 = 0 ∧ base64PatternTest compressed then
      let decoded := utf8Decode (b64DecodeGroups compressed)
      if decoded ≠ [] ∧ isLikelyText decoded then some decoded
      else if isLikelyText raw then some raw else none
    else if isLikelyText raw then some raw else none

/-! ## Decimal rendering of request ids

`toRequestKey` (types.ts lines 56-58) keys the pending map by
`typeof id === "string" ? id : String(id)`.  JavaScript's `String(n)` for a
non-negative integer is its decimal rendering, modelled by `natKey` below
(same digit algorithm as `Nat.repr`, restated structurally so that its
round-trip, and hence injectivity, can be proved directly). -/

/-- The decimal digit character for `d < 10`. -/
def decDigit (d : Nat) : Char := Char.ofNat (48 + d)

/-- Decimal digits of `n`, most significant first; `fuel` bounds the
recursion depth and any `fuel > n` is sufficient. -/
def natKeyAux : Nat → Nat → List Char
  | 0, _ => []
  | fuel + 1, n =>
    if n < 10 then [decDigit n]
    else natKeyAux fuel (n / 10) ++ [decDigit (n % 10)]

/-- JavaScript `String(n)` for a non-negative integer `n`. -/
def natKey (n : Nat) : String := ⟨natKeyAux (n + 1) n⟩

/-- Reading decimal digit characters back as a number. -/
def decValue (l : List Char) : Nat :=
  l.foldl (fun a c => a * 10 + (c.toNat - 48)) 0

theorem decValue_append_digit (l : List Char) (c : Char) :
    decValue (l ++ [c]) = decValue l * 10 + (c.toNat - 48) := by
  simp [decValue, List.foldl_append]

theorem decDigit_toNat {d : Nat} (h : d < 10) : (decDigit d).toNat = 48 + d := by
  interval_cases d <;> rfl

theorem decValue_natKeyAux : ∀ fuel n, n < fuel → decValue (natKeyAux fuel n) = n := by
  intro fuel
  induction fuel with
  | zero => intro n h; omega
  | succ f ih =>
    intro n h
    by_cases h10 : n < 10
    · simp only [natKeyAux, if_pos h10, decValue, List.foldl_cons, List.foldl_nil]
      rw [decDigit_toNat h10]
      omega
    · have hdiv : n / 10 < n := Nat.div_lt_self (by omega) (by omega)
      have hf : n / 10 < f := by omega
      simp only [natKeyAux, if_neg h10, decValue_append_digit, ih _ hf]
      rw [decDigit_toNat (Nat.mod_lt _ (by omega))]
      omega

theorem natKey_injective : Function.Injective natKey := by
  intro a b h
  have : decValue (natKeyAux (a + 1) a) = decValue (natKeyAux (b + 1) b) := by
    have : natKeyAux (a + 1) a = natKeyAux (b + 1) b := congrArg String.data h
    rw [this]
  rwa [decValue_natKeyAux _ _ (Nat.lt_succ_self a),
    decValue_natKeyAux _ _ (Nat.lt_succ_self b)] at this

/-! ## The stream adapter (`doStream`'s closure in `src/codexProvider.ts`)

The `start` callback of the `ReadableStream` closes over a collection of
mutable flags and trackers and reacts to inbound events (routed
notifications, client error/exit callbacks, the abort signal, and the RPC
call settling).  Each of those reactions runs synchronously on the single
event loop, so the adapter is a deterministic step function on the closure
state; emitted `LanguageModelV2StreamPart` frames are accumulated in order.

Delivery gates mirrored from the composition with `CodexMCPClient`:

* `finishStream` ends with `closeClient()`, whose `client.close()` closes the
  stdout line reader — no notification is delivered afterwards;
* `client.handleError` / `client.handleExit` return immediately once the
  client is closed, so the adapter's `onError` / `onExit` callbacks only fire
  while the client is open (and `handleExit` routes its exit error through
  `handleError`, so the adapter's `onError` receives the exit message first;
  its own `onExit` handler then sees `finished` and does nothing);
* the abort listener is registered `once` and removed by `abortCleanup`
  inside `finishStream`, so an abort event is a no-op once finished;
* the notification handler's `_meta.requestId` filter only decides delivery:
  a filtered-out notification behaves exactly like an unrecognized event
  type, which `Msg.other` models. -/

/-- The three logical output channels. -/
inductive Channel
  | text
  | exec
  | reasoning
deriving DecidableEq, Repr

instance : Fintype Channel :=
  ⟨⟨{Channel.text, Channel.exec, Channel.reasoning}, by decide⟩, fun c => by cases c <;> decide⟩

/-- The `finishReason` carried by the terminal frame (`doStream` only ever
uses `"stop"` and `"error"`). -/
inductive FinishReason
  | stop
  | error
deriving DecidableEq, Repr

/-- Payload of an `error` frame: the `AbortError` `DOMException` is
distinguishable from ordinary `Error`s. -/
inductive ErrPayload
  | aborted
  | failure (message : List Char)
deriving DecidableEq, Repr

/-- The stream parts the adapter enqueues, in order. -/
inductive Frame
  | startF (c : Channel)
  | deltaF (c : Channel) (s : List Char)
  | endF (c : Channel)
  | errF (e : ErrPayload)
  | finishF (r : FinishReason)
deriving DecidableEq, Repr

/-- The `codex/event` notification shapes the adapter dispatches on
(`msg.type` plus the payload fields it reads).  Payload fields are the
already-type-checked strings; a notification whose payload fails the
`typeof` guards, whose `_meta.requestId` mismatches, or whose type is
unrecognized is a no-op exactly like `Msg.other`. -/
inductive Msg
  | agentMessageDelta (delta : List Char)
  | agentMessage (message : List Char)
  | agentReasoningDelta (delta : List Char)
  | agentReasoning (text : List Char)
  | agentReasoningSectionBreak
  | execCommandOutputDelta (chunk : List Char)
  | taskComplete (lastAgentMsg : Option (List Char))
  | streamError (message : Option (List Char))
  | errorEvent (message : Option (List Char))
  | other
deriving DecidableEq, Repr

/-- The provider options the closure reads (`?? false` / `?? true` /
`?? false` defaults). -/
structure Config where
  includeCommandOutput : Bool
  includeReasoning : Bool
  includeMessageSource : Bool
deriving DecidableEq, Repr

/-- The default option values (`streamCommandOutput ?? false`,
`streamReasoning ?? true`, `includeMessageSource ?? false`). -/
def defaultCfg : Config := ⟨false, true, false⟩

/-- The mutable closure state of `doStream`'s `start` callback, plus the
ordered list of frames enqueued so far.  `controllerClosed` mirrors
`controller.close()`. -/
structure StreamSt where
  finished : Bool
  finishedViaNotif : Bool
  textStarted : Bool
  textCompleted : Bool
  execStarted : Bool
  execCompleted : Bool
  reasoningStarted : Bool
  reasoningCompleted : Bool
  clientClosed : Bool
  controllerClosed : Bool
  lastAgentMessage : List Char
  lastReasoningMessage : List Char
  reasoningDeltaSeen : Bool
  lastReasoningChunk : List Char
  lastReasoningNormalized : List Char
  frames : List Frame
deriving DecidableEq, Repr

/-- The closure state at the top of the `start` callback. -/
def initSt : StreamSt :=
  ⟨false, false, false, false, false, false, false, false, false, false,
    [], [], false, [], [], []⟩

/-- `controller.enqueue` while the controller is open.  (All call sites below
are reached only with an open controller; the one code path that can attempt
an enqueue on a closed controller — the RPC result arriving after an
abort-triggered finish — is modelled explicitly in `handleRpcResult`.) -/
def enqueue (st : StreamSt) (f : Frame) : StreamSt :=
  { st with frames := st.frames ++ [f] }

/-- `ensureTextStart` (lines 147-151): flip the flag, then enqueue the start
frame. -/
def ensureTextStart (st : StreamSt) : StreamSt :=
  if st.textStarted then st
  else enqueue { st with textStarted := true } (.startF .text)

/-- `ensureExecStreamStart` (lines 153-157). -/
def ensureExecStreamStart (st : StreamSt) : StreamSt :=
  if st.execStarted then st
  else enqueue { st with execStarted := true } (.startF .exec)

/-- `ensureReasoningStart` (lines 159-163). -/
def ensureReasoningStart (st : StreamSt) : StreamSt :=
  if st.reasoningStarted then st
  else enqueue { st with reasoningStarted := true } (.startF .reasoning)

/-- The delta actually enqueued:
`includeMessageSource && source ? `[${source}] ${chunk}` : chunk`. -/
def srcTag (cfg : Config) (source : Option (List Char)) (chunk : List Char) : List Char :=
  match source with
  | some s => if cfg.includeMessageSource then '[' :: (s ++ (']' :: ' ' :: chunk)) else chunk
  | none => chunk

/-- `pushText` (lines 195-200). -/
def pushText (cfg : Config) (st : StreamSt) (chunk : List Char)
    (source : Option (List Char)) : StreamSt :=
  if chunk = [] then st
  else enqueue (ensureTextStart st) (.deltaF .text (srcTag cfg source chunk))

/-- `pushExecText` (lines 211-216). -/
def pushExecText (cfg : Config) (st : StreamSt) (chunk : List Char)
    (source : Option (List Char)) : StreamSt :=
  if chunk = [] then st
  else enqueue (ensureExecStreamStart st) (.deltaF .exec (srcTag cfg source chunk))

/-- `pushReasoning` (lines 220-240): the de-duplication filter in front of
the reasoning channel.  The source's statement sequence on the emit path
(`ensureReasoningStart(); reasoningDeltaSeen = true; enqueue delta;
lastReasoningChunk = chunk; if (normalized) lastReasoningNormalized =
normalized`) touches pairwise distinct state, so it is flattened here into
one record update around the enqueue. -/
def pushReasoning (cfg : Config) (st : StreamSt) (chunk : List Char)
    (source : Option (List Char)) : StreamSt :=
  if chunk = [] ∨ cfg.includeReasoning = false then st
  else if normalizeReasoning chunk = [] ∧ chunk = ['\n'] ∧ st.lastReasoningChunk = ['\n'] then st
  else if normalizeReasoning chunk ≠ [] ∧
      normalizeReasoning chunk = st.lastReasoningNormalized then st
  else if normalizeReasoning chunk = [] ∧ st.lastReasoningChunk = chunk then st
  else
    { enqueue { ensureReasoningStart st with reasoningDeltaSeen := true }
        (.deltaF .reasoning (srcTag cfg source chunk)) with
      lastReasoningChunk := chunk,
      lastReasoningNormalized :=
        if normalizeReasoning chunk = [] then st.lastReasoningNormalized
        else normalizeReasoning chunk }

/-- `closeClient` (lines 242-246). -/
def closeClient (st : StreamSt) : StreamSt :=
  if st.clientClosed then st else { st with clientClosed := true }

/-- `finishStream` (lines 248-279): idempotent finalization — optional error
frame, end frames for the channels still open, the single terminal frame,
then close the controller and the client. -/
def finishStream (st : StreamSt) (reason : FinishReason) (err : Option ErrPayload) : StreamSt :=
  if st.finished then st
  else
    let st := { st with finished := true }
    let st := match err with
      | some e => enqueue st (.errF e)
      | none => st
    let st :=
      if st.textStarted ∧ ¬ st.textCompleted then
        enqueue { st with textCompleted := true } (.endF .text)
      else st
    let st :=
      if st.execStarted ∧ ¬ st.execCompleted then
        enqueue { st with execCompleted := true } (.endF .exec)
      else st
    let st :=
      if st.reasoningStarted ∧ ¬ st.reasoningCompleted then
        enqueue { st with reasoningCompleted := true } (.endF .reasoning)
      else st
    let st := enqueue st (.finishF reason)
    closeClient { st with controllerClosed := true }

/-- Default error text for `stream_error` notifications without a string
`message`. -/
def streamErrorFallback : List Char := "Codex stream error".data

/-- Default error text for `error` notifications without a string
`message`. -/
def errorFallback : List Char := "Codex error".data

/-- The message built by `client.handleExit` (codexClient.ts lines 214-222)
and delivered to the adapter's `onError` handler (stderr buffer elided: the
claims never inspect it and it only appends a suffix). -/
def adapterExitMsg (code : Option Int) (signal : Option (List Char)) : List Char :=
  "codex mcp-server exited with code ".data ++
    (match code with | some c => (toString c).data | none => "null".data) ++
    (match signal with | some s => " signal ".data ++ s | none => [])

/-- The notification handler (lines 281-394), after the `codex/event` method
check and `_meta.requestId` filter have admitted the event. -/
def handleNotif (cfg : Config) (st : StreamSt) (m : Msg) : StreamSt :=
  match m with
  | .agentMessageDelta d =>
    if d ≠ [] then
      let st := pushText cfg st d (some "agent_message_delta".data)
      { st with lastAgentMessage := st.lastAgentMessage ++ d }
    else st
  | .agentMessage message =>
    if message = [] then { st with lastAgentMessage := [] }
    else
      let st :=
        if ¬ st.textStarted then pushText cfg st message (some "agent_message".data)
        else
          let d := message.drop (sharedPrefixLength st.lastAgentMessage message)
          if d ≠ [] then pushText cfg st d (some "agent_message_delta_from_full".data) else st
      { st with lastAgentMessage := message }
  | .agentReasoningDelta d =>
    if cfg.includeReasoning ∧ d ≠ [] then
      let st := pushReasoning cfg st d (some "agent_reasoning_delta".data)
      { st with lastReasoningMessage := st.lastReasoningMessage ++ d }
    else st
  | .agentReasoning text =>
    if cfg.includeReasoning then
      if text = [] then { st with lastReasoningMessage := [] }
      else
        let st :=
          if ¬ st.reasoningStarted then pushReasoning cfg st text (some "agent_reasoning".data)
          else if ¬ st.reasoningDeltaSeen then pushReasoning cfg st text (some "agent_reasoning".data)
          else
            let d := text.drop (sharedPrefixLength st.lastReasoningMessage text)
            if d ≠ [] then pushReasoning cfg st d (some "agent_reasoning_delta_from_full".data)
            else st
        { st with lastReasoningMessage := text }
    else st
  | .agentReasoningSectionBreak =>
    if cfg.includeReasoning then
      let st := pushReasoning cfg st ['\n'] (some "agent_reasoning_section_break".data)
      { st with lastReasoningMessage := st.lastReasoningMessage ++ ['\n'] }
    else st
  | .execCommandOutputDelta chunk =>
    if cfg.includeCommandOutput then
      match decodeExecChunk chunk with
      | some d => pushExecText cfg st d (some "exec_command_output_delta".data)
      | none => st
    else st
  | .taskComplete lam =>
    let st := { st with finishedViaNotif := true }
    let st :=
      match lam with
      | some s =>
        if ¬ st.textStarted ∧ s ≠ [] ∧ jsTrim s ≠ [] then
          pushText cfg st s (some "task_complete".data)
        else st
      | none => st
    finishStream st .stop none
  | .streamError msg =>
    let st := { st with finishedViaNotif := true }
    finishStream st .error (some (.failure (msg.getD streamErrorFallback)))
  | .errorEvent msg =>
    let st := { st with finishedViaNotif := true }
    finishStream st .error (some (.failure (msg.getD errorFallback)))
  | .other => st

/-- The structured RPC result as the adapter observes it:
`extractTextFromResult(result)` and the truthiness of `result.isError`.  A
`null` / non-object result (which makes `doStream` throw
"Codex MCP tool returned an invalid result") is `Option.none` at the call
site. -/
structure CallResult where
  textPayload : List Char
  isErrorFlag : Bool
deriving DecidableEq, Repr

/-- Error text of `"Codex MCP tool returned an invalid result"`. -/
def invalidResultMsg : List Char := "Codex MCP tool returned an invalid result".data

/-- Error text of `"Codex MCP tool invocation failed"`. -/
def invokeFailedMsg : List Char := "Codex MCP tool invocation failed".data

/-- The continuation after `await callPromise` resolves (lines 438-463 plus
the `catch`).  When the stream already finished *without* a terminal
notification (an abort or transport error raced with the response), the
controller is closed: the first `controller.enqueue` in this path throws,
the `catch` calls `finishStream`, and `finishStream` is a no-op on a
finished state — so no frame is emitted; the only surviving mutation is the
`textStarted := true` flip `ensureTextStart` performs before its enqueue
throws, which happens exactly when a well-formed, non-error result carries a
non-empty text payload and the text channel never started. -/
def handleRpcResult (cfg : Config) (st : StreamSt) (r : Option CallResult) : StreamSt :=
  if st.finishedViaNotif then st
  else if st.finished then
    match r with
    | none => st
    | some res =>
      if res.isErrorFlag then st
      else if res.textPayload ≠ [] ∧ ¬ st.textStarted then { st with textStarted := true }
      else st
  else
    match r with
    | none => finishStream st .error (some (.failure invalidResultMsg))
    | some res =>
      if res.isErrorFlag then
        finishStream st .error
          (some (.failure (if res.textPayload ≠ [] then res.textPayload else invokeFailedMsg)))
      else
        let st :=
          if res.textPayload ≠ [] then pushText cfg st res.textPayload (some "call_result".data)
          else st
        let st :=
          if st.textStarted ∧ ¬ st.textCompleted then
            enqueue { st with textCompleted := true } (.endF .text)
          else st
        finishStream st .stop none

/-- The `catch` branch when `callPromise` rejects (lines 464-474): ignored
after a terminal notification, otherwise a terminal error. -/
def handleRpcReject (st : StreamSt) (e : ErrPayload) : StreamSt :=
  if st.finishedViaNotif then st
  else finishStream st .error (some e)

/-- The inbound events of one generation, as delivered by the event loop. -/
inductive AdEvent
  | notif (m : Msg)
  | clientError (message : List Char)
  | procExit (code : Option Int) (signal : Option (List Char))
  | abortSig
  | rpcResult (r : Option CallResult)
  | rpcReject (e : ErrPayload)
deriving DecidableEq, Repr

/-- One inbound event processed against the adapter state, with the delivery
gates described above. -/
def step (cfg : Config) (st : StreamSt) (e : AdEvent) : StreamSt :=
  match e with
  | .notif m => if st.clientClosed then st else handleNotif cfg st m
  | .clientError message =>
    if st.clientClosed then st else finishStream st .error (some (.failure message))
  | .procExit code signal =>
    if st.clientClosed then st
    else finishStream st .error (some (.failure (adapterExitMsg code signal)))
  | .abortSig => if st.finished then st else finishStream st .error (some .aborted)
  | .rpcResult r => handleRpcResult cfg st r
  | .rpcReject e => handleRpcReject st e

/-- Run a whole sequence of inbound events from the initial closure state. -/
def run (cfg : Config) (es : List AdEvent) : StreamSt :=
  es.foldl (step cfg) initSt

/-! ## Channel-framing invariants of the adapter -/

/-- The per-channel `…Started` flag. -/
def startedFlag (st : StreamSt) : Channel → Bool
  | .text => st.textStarted
  | .exec => st.execStarted
  | .reasoning => st.reasoningStarted

/-- The per-channel `…Completed` flag. -/
def completedFlag (st : StreamSt) : Channel → Bool
  | .text => st.textCompleted
  | .exec => st.execCompleted
  | .reasoning => st.reasoningCompleted

/-- Invariant of a not-yet-finished adapter state: flags coincide with the
presence of the corresponding framing frames, framing frames are unique, and
no terminal frame has been emitted. -/
structure PreInv (st : StreamSt) : Prop where
  notFinished : st.finished = false
  clientOpen : st.clientClosed = false
  startIff : ∀ c, startedFlag st c = true ↔ Frame.startF c ∈ st.frames
  startCount : ∀ c, st.frames.count (Frame.startF c) ≤ 1
  endIff : ∀ c, completedFlag st c = true ↔ Frame.endF c ∈ st.frames
  endCount : ∀ c, st.frames.count (Frame.endF c) ≤ 1
  compStart : ∀ c, completedFlag st c = true → startedFlag st c = true
  noFinish : ∀ r, Frame.finishF r ∉ st.frames

/-- Invariant of a finished adapter state: the frame list ends in its unique
terminal frame, framing frames are unique, and an end frame was emitted for
a channel exactly when a start frame was. -/
structure DoneInv (st : StreamSt) : Prop where
  clientClosed : st.clientClosed = true
  shape : ∃ body r, st.frames = body ++ [Frame.finishF r] ∧ ∀ r', Frame.finishF r' ∉ body
  startCount : ∀ c, st.frames.count (Frame.startF c) ≤ 1
  endCount : ∀ c, st.frames.count (Frame.endF c) ≤ 1
  endIffStart : ∀ c, (Frame.endF c ∈ st.frames ↔ Frame.startF c ∈ st.frames)

/-- The adapter invariant. -/
def Inv (st : StreamSt) : Prop :=
  (st.finished = false → PreInv st) ∧ (st.finished = true → DoneInv st)

theorem initSt_preInv : PreInv initSt := by
  refine ⟨rfl, rfl, ?_, ?_, ?_, ?_, ?_, ?_⟩ <;> intro c <;> cases c <;> simp [initSt, startedFlag, completedFlag]

/-- Appending a delta frame never disturbs the framing invariant. -/
theorem PreInv.append_delta {st : StreamSt} (h : PreInv st) (c : Channel) (s : List Char) :
    PreInv (enqueue st (.deltaF c s)) := by
  obtain ⟨h1, h2, h3, h4, h5, h6, h7, h8⟩ := h
  refine ⟨h1, h2, ?_, ?_, ?_, ?_, h7, ?_⟩ <;> intro c' <;>
    simp_all [enqueue, startedFlag, completedFlag, List.count_append]

/-- The framing invariant only reads the lifecycle flags and the frame list,
so it transfers across any state change that preserves those. -/
theorem PreInv.ofProjections {st st' : StreamSt} (h : PreInv st)
    (hfin : st'.finished = st.finished) (hcl : st'.clientClosed = st.clientClosed)
    (hts : st'.textStarted = st.textStarted) (htc : st'.textCompleted = st.textCompleted)
    (hes : st'.execStarted = st.execStarted) (hec : st'.execCompleted = st.execCompleted)
    (hrs : st'.reasoningStarted = st.reasoningStarted)
    (hrc : st'.reasoningCompleted = st.reasoningCompleted)
    (hfr : st'.frames = st.frames) : PreInv st' := by
  have hsf : ∀ c, startedFlag st' c = startedFlag st c := by
    intro c; cases c <;> simp [startedFlag, hts, hes, hrs]
  have hcf : ∀ c, completedFlag st' c = completedFlag st c := by
    intro c; cases c <;> simp [completedFlag, htc, hec, hrc]
  exact ⟨hfin ▸ h.notFinished, hcl ▸ h.clientOpen,
    fun c => by rw [hsf, hfr]; exact h.startIff c,
    fun c => by rw [hfr]; exact h.startCount c,
    fun c => by rw [hcf, hfr]; exact h.endIff c,
    fun c => by rw [hfr]; exact h.endCount c,
    fun c => by rw [hcf, hsf]; exact h.compStart c,
    fun r => by rw [hfr]; exact h.noFinish r⟩

theorem ensureTextStart_preInv {st : StreamSt} (h : PreInv st) :
    PreInv (ensureTextStart st) := by
  obtain ⟨h1, h2, h3, h4, h5, h6, h7, h8⟩ := h
  rw [ensureTextStart]
  split
  · exact ⟨h1, h2, h3, h4, h5, h6, h7, h8⟩
  · rename_i hns
    have hnotin : Frame.startF Channel.text ∉ st.frames := by
      intro hmem
      exact hns ((h3 Channel.text).mpr hmem)
    refine ⟨h1, h2, ?_, ?_, ?_, ?_, ?_, ?_⟩
    · intro c'
      have h3' := h3 c'
      cases c' <;> simp_all [enqueue, startedFlag, List.mem_append]
    · intro c'
      have h4' := h4 c'
      by_cases hc : c' = Channel.text
      · subst hc
        simp_all [enqueue, List.count_append, List.count_eq_zero]
      · simp_all [enqueue, List.count_append]
    · intro c'
      have h5' := h5 c'
      cases c' <;> simp_all [enqueue, completedFlag, List.mem_append]
    · intro c'
      have h6' := h6 c'
      simp_all [enqueue, List.count_append]
    · intro c' hc
      have h7' := h7 c' (by cases c' <;> simpa [completedFlag, enqueue] using hc)
      cases c' <;> simp_all [startedFlag, enqueue]
    · intro r
      have h8' := h8 r
      simp_all [enqueue]

theorem ensureExecStreamStart_preInv {st : StreamSt} (h : PreInv st) :
    PreInv (ensureExecStreamStart st) := by
  obtain ⟨h1, h2, h3, h4, h5, h6, h7, h8⟩ := h
  rw [ensureExecStreamStart]
  split
  · exact ⟨h1, h2, h3, h4, h5, h6, h7, h8⟩
  · rename_i hns
    have hnotin : Frame.startF Channel.exec ∉ st.frames := by
      intro hmem
      exact hns ((h3 Channel.exec).mpr hmem)
    refine ⟨h1, h2, ?_, ?_, ?_, ?_, ?_, ?_⟩
    · intro c'
      have h3' := h3 c'
      cases c' <;> simp_all [enqueue, startedFlag, List.mem_append]
    · intro c'
      have h4' := h4 c'
      by_cases hc : c' = Channel.exec
      · subst hc
        simp_all [enqueue, List.count_append, List.count_eq_zero]
      · simp_all [enqueue, List.count_append]
    · intro c'
      have h5' := h5 c'
      cases c' <;> simp_all [enqueue, completedFlag, List.mem_append]
    · intro c'
      have h6' := h6 c'
      simp_all [enqueue, List.count_append]
    · intro c' hc
      have h7' := h7 c' (by cases c' <;> simpa [completedFlag, enqueue] using hc)
      cases c' <;> simp_all [startedFlag, enqueue]
    · intro r
      have h8' := h8 r
      simp_all [enqueue]

theorem ensureReasoningStart_preInv {st : StreamSt} (h : PreInv st) :
    PreInv (ensureReasoningStart st) := by
  obtain ⟨h1, h2, h3, h4, h5, h6, h7, h8⟩ := h
  rw [ensureReasoningStart]
  split
  · exact ⟨h1, h2, h3, h4, h5, h6, h7, h8⟩
  · rename_i hns
    have hnotin : Frame.startF Channel.reasoning ∉ st.frames := by
      intro hmem
      exact hns ((h3 Channel.reasoning).mpr hmem)
    refine ⟨h1, h2, ?_, ?_, ?_, ?_, ?_, ?_⟩
    · intro c'
      have h3' := h3 c'
      cases c' <;> simp_all [enqueue, startedFlag, List.mem_append]
    · intro c'
      have h4' := h4 c'
      by_cases hc : c' = Channel.reasoning
      · subst hc
        simp_all [enqueue, List.count_append, List.count_eq_zero]
      · simp_all [enqueue, List.count_append]
    · intro c'
      have h5' := h5 c'
      cases c' <;> simp_all [enqueue, completedFlag, List.mem_append]
    · intro c'
      have h6' := h6 c'
      simp_all [enqueue, List.count_append]
    · intro c' hc
      have h7' := h7 c' (by cases c' <;> simpa [completedFlag, enqueue] using hc)
      cases c' <;> simp_all [startedFlag, enqueue]
    · intro r
      have h8' := h8 r
      simp_all [enqueue]

theorem pushText_preInv {st : StreamSt} (h : PreInv st) (cfg : Config)
    (chunk : List Char) (source : Option (List Char)) :
    PreInv (pushText cfg st chunk source) := by
  rw [pushText]
  split
  · exact h
  · exact (ensureTextStart_preInv h).append_delta _ _

theorem pushExecText_preInv {st : StreamSt} (h : PreInv st) (cfg : Config)
    (chunk : List Char) (source : Option (List Char)) :
    PreInv (pushExecText cfg st chunk source) := by
  rw [pushExecText]
  split
  · exact h
  · exact (ensureExecStreamStart_preInv h).append_delta _ _

theorem pushReasoning_preInv {st : StreamSt} (h : PreInv st) (cfg : Config)
    (chunk : List Char) (source : Option (List Char)) :
    PreInv (pushReasoning cfg st chunk source) := by
  rw [pushReasoning]
  split
  · exact h
  split
  · exact h
  split
  · exact h
  split
  · exact h
  have hmid : PreInv { ensureReasoningStart st with reasoningDeltaSeen := true } := by
    have := ensureReasoningStart_preInv h
    exact this.ofProjections rfl rfl rfl rfl rfl rfl rfl rfl rfl
  have h' := hmid.append_delta Channel.reasoning (srcTag cfg source chunk)
  exact h'.ofProjections rfl rfl rfl rfl rfl rfl rfl rfl rfl

theorem closeClient_frames (st : StreamSt) : (closeClient st).frames = st.frames := by
  rw [closeClient]; split <;> rfl

theorem closeClient_finished (st : StreamSt) : (closeClient st).finished = st.finished := by
  rw [closeClient]; split <;> rfl

theorem closeClient_clientClosed (st : StreamSt) : (closeClient st).clientClosed = true := by
  rw [closeClient]; split <;> simp_all

/-- The optional error frame `finishStream` emits first. -/
def errSeg : Option ErrPayload → List Frame
  | some e => [Frame.errF e]
  | none => []

/-- The end frame `finishStream` emits for a channel that is started but not
yet completed. -/
def endSeg (st : StreamSt) (c : Channel) : List Frame :=
  if startedFlag st c = true ∧ completedFlag st c = false then [Frame.endF c] else []

/-- Closed form of one `finishStream` call on an unfinished state: the error
frame (if any), then end frames for the still-open channels, then the
terminal frame; and the controller and client end up closed. -/
theorem finishStream_spec {st : StreamSt} (h : st.finished = false)
    (reason : FinishReason) (err : Option ErrPayload) :
    (finishStream st reason err).frames =
      st.frames ++ errSeg err ++ endSeg st .text ++ endSeg st .exec ++
        endSeg st .reasoning ++ [Frame.finishF reason] ∧
    (finishStream st reason err).clientClosed = true ∧
    (finishStream st reason err).finished = true := by
  cases err <;>
    cases hts : st.textStarted <;> cases htc : st.textCompleted <;>
    cases hes : st.execStarted <;> cases hec : st.execCompleted <;>
    cases hrs : st.reasoningStarted <;> cases hrc : st.reasoningCompleted <;>
    simp [finishStream, h, errSeg, endSeg, startedFlag, completedFlag, enqueue,
      closeClient_frames, closeClient_finished, closeClient_clientClosed,
      hts, htc, hes, hec, hrs, hrc, List.append_assoc]

/-- `finishStream` on an already-finished state is the identity (second line
of the source: `if (finished) return`). -/
theorem finishStream_id {st : StreamSt} (h : st.finished = true)
    (reason : FinishReason) (err : Option ErrPayload) :
    finishStream st reason err = st := by
  simp [finishStream, h]

theorem finishF_not_mem_errSeg (err : Option ErrPayload) (r : FinishReason) :
    Frame.finishF r ∉ errSeg err := by
  cases err <;> simp [errSeg]

theorem finishF_not_mem_endSeg (st : StreamSt) (c : Channel) (r : FinishReason) :
    Frame.finishF r ∉ endSeg st c := by
  rw [endSeg]; split <;> simp

theorem startF_not_mem_errSeg (err : Option ErrPayload) (c : Channel) :
    Frame.startF c ∉ errSeg err := by
  cases err <;> simp [errSeg]

theorem startF_not_mem_endSeg (st : StreamSt) (c c' : Channel) :
    Frame.startF c' ∉ endSeg st c := by
  rw [endSeg]; split <;> simp

theorem endF_not_mem_errSeg (err : Option ErrPayload) (c : Channel) :
    Frame.endF c ∉ errSeg err := by
  cases err <;> simp [errSeg]

theorem count_endSeg (st : StreamSt) (c c' : Channel) :
    (endSeg st c).count (Frame.endF c') ≤ if c = c' then 1 else 0 := by
  rw [endSeg]
  split <;> by_cases hc : c = c' <;> simp_all [List.count_singleton]

theorem mem_endSeg_iff (st : StreamSt) (c c' : Channel) :
    Frame.endF c' ∈ endSeg st c ↔
      (c = c' ∧ startedFlag st c = true ∧ completedFlag st c = false) := by
  rw [endSeg]
  split
  · rename_i hcond
    simp only [List.mem_singleton, Frame.endF.injEq]
    exact ⟨fun h' => ⟨h'.symm, hcond.1, hcond.2⟩, fun h' => h'.1.symm⟩
  · rename_i hcond
    simp only [List.not_mem_nil, false_iff, not_and]
    intro _ hs hc
    exact hcond ⟨hs, hc⟩

/-- Finalizing a state that satisfies the open-state framing invariant yields
a state satisfying the finished-state invariant. -/
theorem finishStream_doneInv {st : StreamSt} (hpre : PreInv st)
    (reason : FinishReason) (err : Option ErrPayload) :
    DoneInv (finishStream st reason err) := by
  obtain ⟨hfr, hcl, hfin⟩ := finishStream_spec hpre.notFinished reason err
  refine ⟨hcl, ?_, ?_, ?_, ?_⟩
  · refine ⟨st.frames ++ errSeg err ++ endSeg st .text ++ endSeg st .exec ++
      endSeg st .reasoning, reason, by rw [hfr], ?_⟩
    intro r'
    simp only [List.mem_append]
    push_neg
    exact ⟨⟨⟨⟨hpre.noFinish r', finishF_not_mem_errSeg err r'⟩,
      finishF_not_mem_endSeg st .text r'⟩, finishF_not_mem_endSeg st .exec r'⟩,
      finishF_not_mem_endSeg st .reasoning r'⟩
  · intro c
    rw [hfr]
    have h1 : (errSeg err).count (Frame.startF c) = 0 :=
      List.count_eq_zero.mpr (startF_not_mem_errSeg err c)
    have h2 : ∀ c', (endSeg st c').count (Frame.startF c) = 0 := fun c' =>
      List.count_eq_zero.mpr (startF_not_mem_endSeg st c' c)
    simp [List.count_append, h1, h2, hpre.startCount c]
  · intro c
    rw [hfr]
    simp only [List.count_append]
    have h1 : (errSeg err).count (Frame.endF c) = 0 :=
      List.count_eq_zero.mpr (endF_not_mem_errSeg err c)
    have h2 : List.count (Frame.endF c) [Frame.finishF reason] = 0 := by simp
    have hc0 : ∀ c', c' ≠ c → (endSeg st c').count (Frame.endF c) = 0 := by
      intro c' hne
      exact List.count_eq_zero.mpr fun hmem => hne ((mem_endSeg_iff st c' c).mp hmem).1
    have hpair : (endSeg st c).count (Frame.endF c) + st.frames.count (Frame.endF c) ≤ 1 := by
      by_cases hopen : startedFlag st c = true ∧ completedFlag st c = false
      · have hz : st.frames.count (Frame.endF c) = 0 := by
          refine List.count_eq_zero.mpr fun hmem => ?_
          have hcomp := (hpre.endIff c).mpr hmem
          rw [hopen.2] at hcomp
          exact Bool.noConfusion hcomp
        have hle : (endSeg st c).count (Frame.endF c) ≤ 1 := by
          rw [endSeg]; split <;> simp
        omega
      · have hz : (endSeg st c).count (Frame.endF c) = 0 := by
          refine List.count_eq_zero.mpr fun hmem => ?_
          have hm := (mem_endSeg_iff st c c).mp hmem
          exact hopen ⟨hm.2.1, hm.2.2⟩
        have := hpre.endCount c
        omega
    cases c
    · have he := hc0 Channel.exec (by decide)
      have hr := hc0 Channel.reasoning (by decide)
      omega
    · have ht := hc0 Channel.text (by decide)
      have hr := hc0 Channel.reasoning (by decide)
      omega
    · have ht := hc0 Channel.text (by decide)
      have he := hc0 Channel.exec (by decide)
      omega
  · intro c
    rw [hfr]
    have hstart : ∀ c', Frame.startF c ∉ endSeg st c' := fun c' =>
      startF_not_mem_endSeg st c' c
    constructor
    · intro hmem
      simp only [List.mem_append] at hmem
      have hin : Frame.endF c ∈ st.frames ∨
          (startedFlag st c = true ∧ completedFlag st c = false) := by
        rcases hmem with ((((hmem | hmem) | hmem) | hmem) | hmem) | hmem
        · exact Or.inl hmem
        · exact absurd hmem (endF_not_mem_errSeg err c)
        · obtain ⟨hcq, hs, hcp⟩ := (mem_endSeg_iff st _ c).mp hmem
          exact Or.inr ⟨hcq ▸ hs, hcq ▸ hcp⟩
        · obtain ⟨hcq, hs, hcp⟩ := (mem_endSeg_iff st _ c).mp hmem
          exact Or.inr ⟨hcq ▸ hs, hcq ▸ hcp⟩
        · obtain ⟨hcq, hs, hcp⟩ := (mem_endSeg_iff st _ c).mp hmem
          exact Or.inr ⟨hcq ▸ hs, hcq ▸ hcp⟩
        · simp at hmem
      have hstarted : startedFlag st c = true := by
        rcases hin with hin | hin
        · exact hpre.compStart c ((hpre.endIff c).mpr hin)
        · exact hin.1
      have := (hpre.startIff c).mp hstarted
      simp [List.mem_append, this]
    · intro hmem
      simp only [List.mem_append] at hmem
      have hstarted : startedFlag st c = true := by
        rcases hmem with ((((hmem | hmem) | hmem) | hmem) | hmem) | hmem
        · exact (hpre.startIff c).mpr hmem
        · exact absurd hmem (startF_not_mem_errSeg err c)
        · exact absurd hmem (hstart _)
        · exact absurd hmem (hstart _)
        · exact absurd hmem (hstart _)
        · simp at hmem
      by_cases hcomp : completedFlag st c = true
      · have := (hpre.endIff c).mp hcomp
        simp [List.mem_append, this]
      · have : Frame.endF c ∈ endSeg st c := by
          rw [mem_endSeg_iff]
          exact ⟨rfl, hstarted, by simpa using hcomp⟩
        cases c <;> simp_all [List.mem_append]

theorem Inv.ofPre {st : StreamSt} (h : PreInv st) : Inv st :=
  ⟨fun _ => h, fun hf => by rw [h.notFinished] at hf; exact Bool.noConfusion hf⟩

theorem Inv.ofDone {st : StreamSt} (h : DoneInv st) (hfin : st.finished = true) : Inv st :=
  ⟨fun hf => by rw [hfin] at hf; exact Bool.noConfusion hf, fun _ => h⟩

theorem DoneInv.ofFrameEq {st st' : StreamSt} (h : DoneInv st)
    (hcl : st'.clientClosed = st.clientClosed) (hfr : st'.frames = st.frames) :
    DoneInv st' :=
  ⟨hcl.trans h.clientClosed, by rw [hfr]; exact h.shape,
    fun c => by rw [hfr]; exact h.startCount c,
    fun c => by rw [hfr]; exact h.endCount c,
    fun c => by rw [hfr]; exact h.endIffStart c⟩

theorem PreInv.setLastAgent {st : StreamSt} (h : PreInv st) (v : List Char) :
    PreInv { st with lastAgentMessage := v } :=
  h.ofProjections rfl rfl rfl rfl rfl rfl rfl rfl rfl

theorem PreInv.setLastReasoningMsg {st : StreamSt} (h : PreInv st) (v : List Char) :
    PreInv { st with lastReasoningMessage := v } :=
  h.ofProjections rfl rfl rfl rfl rfl rfl rfl rfl rfl

theorem PreInv.setViaNotif {st : StreamSt} (h : PreInv st) :
    PreInv { st with finishedViaNotif := true } :=
  h.ofProjections rfl rfl rfl rfl rfl rfl rfl rfl rfl

theorem preInv_ite {c : Prop} [Decidable c] {a b : StreamSt}
    (ha : c → PreInv a) (hb : ¬c → PreInv b) : PreInv (if c then a else b) := by
  by_cases h : c
  · rw [if_pos h]; exact ha h
  · rw [if_neg h]; exact hb h

theorem inv_ite {c : Prop} [Decidable c] {a b : StreamSt}
    (ha : c → Inv a) (hb : ¬c → Inv b) : Inv (if c then a else b) := by
  by_cases h : c
  · rw [if_pos h]; exact ha h
  · rw [if_neg h]; exact hb h

theorem finishStream_inv {st : StreamSt} (h : PreInv st)
    (reason : FinishReason) (err : Option ErrPayload) :
    Inv (finishStream st reason err) :=
  Inv.ofDone (finishStream_doneInv h reason err)
    (finishStream_spec h.notFinished reason err).2.2

/-- The `text-end`-before-`finishStream` guard on the RPC-result path
preserves the open-state invariant. -/
theorem rpcEndGuard_preInv {st : StreamSt} (h : PreInv st) :
    PreInv (if st.textStarted ∧ ¬ st.textCompleted then
      enqueue { st with textCompleted := true } (.endF .text) else st) := by
  obtain ⟨h1, h2, h3, h4, h5, h6, h7, h8⟩ := h
  split
  · rename_i hcond
    have hnotin : Frame.endF Channel.text ∉ st.frames := by
      intro hmem
      have := (h5 Channel.text).mpr hmem
      simp [completedFlag] at this
      simp [this] at hcond
    refine ⟨h1, h2, ?_, ?_, ?_, ?_, ?_, ?_⟩
    · intro c'
      have h3' := h3 c'
      cases c' <;> simp_all [enqueue, startedFlag, List.mem_append]
    · intro c'
      have h4' := h4 c'
      simp_all [enqueue, List.count_append]
    · intro c'
      have h5' := h5 c'
      cases c' <;> simp_all [enqueue, completedFlag, List.mem_append]
    · intro c'
      have h6' := h6 c'
      by_cases hc : c' = Channel.text
      · subst hc
        simp_all [enqueue, List.count_append, List.count_eq_zero]
      · simp_all [enqueue, List.count_append]
    · intro c' hc
      by_cases hcq : c' = Channel.text
      · subst hcq
        cases hts : st.textStarted <;> simp_all [startedFlag, enqueue]
      · have h7' := h7 c' (by cases c' <;> simp_all [completedFlag, enqueue])
        cases c' <;> simp_all [startedFlag, enqueue]
    · intro r
      have h8' := h8 r
      simp_all [enqueue]
  · exact ⟨h1, h2, h3, h4, h5, h6, h7, h8⟩

theorem handleNotif_inv {st : StreamSt} (h : PreInv st) (cfg : Config) (m : Msg) :
    Inv (handleNotif cfg st m) := by
  cases m
  case agentMessageDelta d =>
    simp only [handleNotif]
    split
    · exact Inv.ofPre ((pushText_preInv h cfg d _).setLastAgent _)
    · exact Inv.ofPre h
  case agentMessage message =>
    simp only [handleNotif]
    split
    · exact Inv.ofPre (h.setLastAgent _)
    · refine Inv.ofPre (PreInv.setLastAgent ?_ _)
      split
      · exact pushText_preInv h cfg _ _
      · split
        · exact pushText_preInv h cfg _ _
        · exact h
  case agentReasoningDelta d =>
    simp only [handleNotif]
    split
    · exact Inv.ofPre ((pushReasoning_preInv h cfg d _).setLastReasoningMsg _)
    · exact Inv.ofPre h
  case agentReasoning text =>
    simp only [handleNotif]
    split
    · split
      · exact Inv.ofPre (h.setLastReasoningMsg _)
      · refine Inv.ofPre (PreInv.setLastReasoningMsg ?_ _)
        split
        · exact pushReasoning_preInv h cfg _ _
        · split
          · exact pushReasoning_preInv h cfg _ _
          · split
            · exact pushReasoning_preInv h cfg _ _
            · exact h
    · exact Inv.ofPre h
  case agentReasoningSectionBreak =>
    simp only [handleNotif]
    split
    · exact Inv.ofPre ((pushReasoning_preInv h cfg _ _).setLastReasoningMsg _)
    · exact Inv.ofPre h
  case execCommandOutputDelta chunk =>
    simp only [handleNotif]
    split
    · split
      · exact Inv.ofPre (pushExecText_preInv h cfg _ _)
      · exact Inv.ofPre h
    · exact Inv.ofPre h
  case taskComplete lam =>
    simp only [handleNotif]
    cases lam with
    | some s =>
      refine finishStream_inv (preInv_ite ?_ ?_) _ _
      · intro _; exact pushText_preInv h.setViaNotif cfg _ _
      · intro _; exact h.setViaNotif
    | none => exact finishStream_inv h.setViaNotif _ _
  case streamError msg =>
    simp only [handleNotif]
    exact finishStream_inv h.setViaNotif _ _
  case errorEvent msg =>
    simp only [handleNotif]
    exact finishStream_inv h.setViaNotif _ _
  case other => exact Inv.ofPre h

theorem handleRpcResult_inv {st : StreamSt} (hI : Inv st) (cfg : Config)
    (r : Option CallResult) : Inv (handleRpcResult cfg st r) := by
  rw [handleRpcResult.eq_def]
  by_cases hv : st.finishedViaNotif = true
  · rw [if_pos hv]; exact hI
  rw [if_neg hv]
  by_cases hfin : st.finished = true
  · rw [if_pos hfin]
    have hD := hI.2 hfin
    cases r with
    | none => exact hI
    | some res =>
      dsimp only
      refine inv_ite (fun _ => hI) fun _ => ?_
      exact inv_ite (fun _ => Inv.ofDone (hD.ofFrameEq rfl rfl) hfin) fun _ => hI
  · rw [if_neg hfin]
    have hPre : PreInv st := hI.1 (by simpa using hfin)
    cases r with
    | none => exact finishStream_inv hPre _ _
    | some res =>
      dsimp only
      by_cases he : res.isErrorFlag = true
      · rw [if_pos he]
        exact finishStream_inv hPre _ _
      · rw [if_neg he]
        have hX : PreInv (if res.textPayload ≠ [] then
            pushText cfg st res.textPayload (some "call_result".data) else st) :=
          preInv_ite (fun _ => pushText_preInv hPre cfg _ _) fun _ => hPre
        exact finishStream_inv (rpcEndGuard_preInv hX) _ _

theorem handleRpcReject_inv {st : StreamSt} (hI : Inv st) (e : ErrPayload) :
    Inv (handleRpcReject st e) := by
  rw [handleRpcReject]
  split
  · exact hI
  by_cases hfin : st.finished = true
  · rw [finishStream_id hfin]
    exact hI
  · exact finishStream_inv (hI.1 (by simpa using hfin)) _ _

theorem step_inv {st : StreamSt} (hI : Inv st) (cfg : Config) (e : AdEvent) :
    Inv (step cfg st e) := by
  cases e
  case notif m =>
    simp only [step]
    split
    · exact hI
    · rename_i hcc
      by_cases hfin : st.finished = true
      · exact absurd ((hI.2 hfin).clientClosed) (by simpa using hcc)
      · exact handleNotif_inv (hI.1 (by simpa using hfin)) cfg m
  case clientError message =>
    simp only [step]
    split
    · exact hI
    · rename_i hcc
      by_cases hfin : st.finished = true
      · exact absurd ((hI.2 hfin).clientClosed) (by simpa using hcc)
      · exact finishStream_inv (hI.1 (by simpa using hfin)) _ _
  case procExit code signal =>
    simp only [step]
    split
    · exact hI
    · rename_i hcc
      by_cases hfin : st.finished = true
      · exact absurd ((hI.2 hfin).clientClosed) (by simpa using hcc)
      · exact finishStream_inv (hI.1 (by simpa using hfin)) _ _
  case abortSig =>
    simp only [step]
    split
    · exact hI
    · rename_i hfin
      exact finishStream_inv (hI.1 (by simpa using hfin)) _ _
  case rpcResult r => exact handleRpcResult_inv hI cfg r
  case rpcReject e => exact handleRpcReject_inv hI e

theorem foldl_step_inv (cfg : Config) (es : List AdEvent) :
    ∀ st : StreamSt, Inv st → Inv (es.foldl (step cfg) st) := by
  induction es with
  | nil => intro st h; exact h
  | cons e es ih =>
    intro st h
    exact ih _ (step_inv h cfg e)

/-- Every reachable adapter state satisfies the framing invariant. -/
theorem run_inv (cfg : Config) (es : List AdEvent) : Inv (run cfg es) :=
  foldl_step_inv cfg es initSt (Inv.ofPre initSt_preInv)

/-- After finalization, no inbound event emits another frame, and the state
stays finished. -/
theorem step_frozen {st : StreamSt} (hI : Inv st) (hfin : st.finished = true)
    (cfg : Config) (e : AdEvent) :
    (step cfg st e).frames = st.frames ∧ (step cfg st e).finished = true := by
  have hcc := (hI.2 hfin).clientClosed
  cases e
  case notif m => simp [step, hcc, hfin]
  case clientError message => simp [step, hcc, hfin]
  case procExit code signal => simp [step, hcc, hfin]
  case abortSig => simp [step, hfin]
  case rpcResult r =>
    simp only [step]
    rw [handleRpcResult.eq_def]
    by_cases hv : st.finishedViaNotif = true
    · rw [if_pos hv]; exact ⟨rfl, hfin⟩
    · rw [if_neg hv, if_pos hfin]
      cases r with
      | none => exact ⟨rfl, hfin⟩
      | some res =>
        dsimp only
        by_cases he : res.isErrorFlag = true
        · rw [if_pos he]; exact ⟨rfl, hfin⟩
        · rw [if_neg he]
          by_cases ht : res.textPayload ≠ [] ∧ ¬ st.textStarted = true
          · rw [if_pos ht]; exact ⟨rfl, hfin⟩
          · rw [if_neg ht]; exact ⟨rfl, hfin⟩
  case rpcReject e =>
    simp only [step]
    rw [handleRpcReject]
    split
    · exact ⟨rfl, hfin⟩
    · rw [finishStream_id hfin]
      exact ⟨rfl, hfin⟩

theorem foldl_frozen (cfg : Config) (tail : List AdEvent) :
    ∀ st : StreamSt, Inv st → st.finished = true →
      (tail.foldl (step cfg) st).frames = st.frames ∧
      (tail.foldl (step cfg) st).finished = true := by
  induction tail with
  | nil => intro st _ hfin; exact ⟨rfl, hfin⟩
  | cons e es ih =>
    intro st hI hfin
    obtain ⟨hfr, hfin'⟩ := step_frozen hI hfin cfg e
    obtain ⟨hfr', hfin''⟩ := ih _ (step_inv hI cfg e) hfin'
    exact ⟨hfr'.trans hfr, hfin''⟩

/-! ## Terminal-frame accounting and the generation outcome -/

/-- Is a frame the terminal frame? -/
def isFinishFrame : Frame → Bool
  | .finishF _ => true
  | _ => false

/-- Number of terminal frames emitted. -/
def countFinish (fs : List Frame) : Nat := fs.countP isFinishFrame

/-- The generation outcome, as observable from the emitted frames: the
reason of the terminal frame, with an error outcome refined to `aborted`
when the error frame carries the `AbortError`. -/
inductive Outcome
  | stop
  | error
  | aborted
deriving DecidableEq, Repr

/-- The reason carried by the first terminal frame, if any. -/
def firstFinishReason (fs : List Frame) : Option FinishReason :=
  fs.findSome? fun f => match f with | .finishF r => some r | _ => none

/-- The outcome of a generation as a function of its emitted frames. -/
def outcomeOf (st : StreamSt) : Option Outcome :=
  match firstFinishReason st.frames with
  | none => none
  | some .stop => some .stop
  | some .error =>
    if Frame.errF .aborted ∈ st.frames then some .aborted else some .error

theorem outcomeOf_congr {st st' : StreamSt} (h : st.frames = st'.frames) :
    outcomeOf st = outcomeOf st' := by
  rw [outcomeOf, outcomeOf, h]

theorem countFinish_of_pre {st : StreamSt} (h : PreInv st) :
    countFinish st.frames = 0 := by
  rw [countFinish, List.countP_eq_zero]
  intro a ha
  cases a <;> simp [isFinishFrame]
  case finishF r => exact absurd ha (h.noFinish r)

theorem countFinish_of_done {st : StreamSt} (h : DoneInv st) :
    countFinish st.frames = 1 := by
  obtain ⟨body, r, hshape, hbody⟩ := h.shape
  rw [countFinish, hshape, List.countP_append]
  have hz : body.countP isFinishFrame = 0 := by
    rw [List.countP_eq_zero]
    intro a ha
    cases a <;> simp [isFinishFrame]
    case finishF r' => exact absurd ha (hbody r')
  simp [hz, isFinishFrame]

/-! ## Claims C1 and C2 -/

/-- **C1**: for every configuration and every sequence of inbound events
whose processing has finished the generation, an end frame was emitted for a
channel if and only if a start frame was emitted for it, each end frame was
emitted at most once, and every end frame precedes the single terminal
(finish) frame — the frame list is a body free of terminal frames followed
by exactly one terminal frame, and all end frames lie in that body. -/
theorem c1_channel_framing (cfg : Config) (es : List AdEvent)
    (hfin : (run cfg es).finished = true) :
    (∀ c, ((run cfg es).frames).count (Frame.endF c) ≤ 1) ∧
    (∀ c, (Frame.endF c ∈ (run cfg es).frames ↔ Frame.startF c ∈ (run cfg es).frames)) ∧
    (∃ body r, (run cfg es).frames = body ++ [Frame.finishF r] ∧
      ∀ r', Frame.finishF r' ∉ body) :=
  ⟨((run_inv cfg es).2 hfin).endCount, ((run_inv cfg es).2 hfin).endIffStart,
    ((run_inv cfg es).2 hfin).shape⟩

/-- A concrete terminating run exercising `c1_channel_framing`: one text
delta followed by `task_complete`. -/
def c1Events : List AdEvent :=
  [AdEvent.notif (Msg.agentMessageDelta "hi".data), AdEvent.notif (Msg.taskComplete none)]

theorem c1_channel_framing_witness :
    ((run defaultCfg c1Events).finished = true) ∧
    ((∀ c, ((run defaultCfg c1Events).frames).count (Frame.endF c) ≤ 1) ∧
      (∀ c, (Frame.endF c ∈ (run defaultCfg c1Events).frames ↔
        Frame.startF c ∈ (run defaultCfg c1Events).frames)) ∧
      (∃ body r, (run defaultCfg c1Events).frames = body ++ [Frame.finishF r] ∧
        ∀ r', Frame.finishF r' ∉ body)) :=
  ⟨by decide, c1_channel_framing defaultCfg c1Events (by decide)⟩

/-- **C2**: the generation outcome is set at most once — at most one terminal
frame ever, exactly one once finished — and after finalization every
subsequent sequence of inbound events (terminal notifications, abort, errors,
exits, and in particular the RPC call's result arriving afterwards) produces
no further frames, keeps the generation finished, and leaves the outcome
unchanged. -/
theorem c2_single_outcome (cfg : Config) (es tail : List AdEvent)
    (hfin : (run cfg es).finished = true) :
    (∀ es' : List AdEvent, countFinish (run cfg es').frames ≤ 1) ∧
    countFinish (run cfg es).frames = 1 ∧
    (run cfg (es ++ tail)).frames = (run cfg es).frames ∧
    (run cfg (es ++ tail)).finished = true ∧
    outcomeOf (run cfg (es ++ tail)) = outcomeOf (run cfg es) := by
  have hcount : ∀ es' : List AdEvent, countFinish (run cfg es').frames ≤ 1 := by
    intro es'
    rcases run_inv cfg es' with ⟨hp, hd⟩
    by_cases hf : (run cfg es').finished = true
    · rw [countFinish_of_done (hd hf)]
    · rw [countFinish_of_pre (hp (by simpa using hf))]
      exact Nat.zero_le 1
  have happ : run cfg (es ++ tail) = tail.foldl (step cfg) (run cfg es) := by
    rw [run, run, List.foldl_append]
  obtain ⟨hfr, hfin'⟩ := foldl_frozen cfg tail (run cfg es) (run_inv cfg es) hfin
  exact ⟨hcount, countFinish_of_done ((run_inv cfg es).2 hfin),
    by rw [happ]; exact hfr, by rw [happ]; exact hfin',
    by rw [happ]; exact outcomeOf_congr hfr⟩

/-- A concrete run exercising `c2_single_outcome`: finalization via
`task_complete`, with the RPC result arriving afterwards. -/
def c2Events : List AdEvent := [AdEvent.notif (Msg.taskComplete none)]

/-- Late events after finalization for the C2 witness. -/
def c2Tail : List AdEvent :=
  [AdEvent.rpcResult (some ⟨"ok".data, false⟩), AdEvent.notif (Msg.agentMessageDelta "x".data)]

theorem c2_single_outcome_witness :
    ((run defaultCfg c2Events).finished = true) ∧
    ((∀ es' : List AdEvent, countFinish (run defaultCfg es').frames ≤ 1) ∧
      countFinish (run defaultCfg c2Events).frames = 1 ∧
      (run defaultCfg (c2Events ++ c2Tail)).frames = (run defaultCfg c2Events).frames ∧
      (run defaultCfg (c2Events ++ c2Tail)).finished = true ∧
      outcomeOf (run defaultCfg (c2Events ++ c2Tail)) = outcomeOf (run defaultCfg c2Events)) :=
  ⟨by decide, c2_single_outcome defaultCfg c2Events c2Tail (by decide)⟩

/-! ## Claim C3: full-value text events after deltas -/

/-- A sequence of `agent_message_delta` notifications. -/
def deltasOnly (ds : List (List Char)) : List AdEvent :=
  ds.map fun d => AdEvent.notif (Msg.agentMessageDelta d)

/-- Concatenation of the streamed delta chunks. -/
def concatAll (ds : List (List Char)) : List Char := ds.foldr (· ++ ·) []

/-- The text-channel delta payloads among a frame list, in order. -/
def textDeltas (fs : List Frame) : List (List Char) :=
  fs.filterMap fun f => match f with | .deltaF .text s => some s | _ => none

theorem textDeltas_append (fs gs : List Frame) :
    textDeltas (fs ++ gs) = textDeltas fs ++ textDeltas gs :=
  List.filterMap_append fs gs _

theorem sharedPrefixLength_append (a rest : List Char) :
    sharedPrefixLength a (a ++ rest) = a.length := by
  induction a with
  | nil => rfl
  | cons x xs ih => simp [sharedPrefixLength, ih]

theorem pushText_proj (cfg : Config) (st : StreamSt) (chunk : List Char)
    (src : Option (List Char)) :
    (pushText cfg st chunk src).finished = st.finished ∧
    (pushText cfg st chunk src).clientClosed = st.clientClosed ∧
    (pushText cfg st chunk src).lastAgentMessage = st.lastAgentMessage ∧
    ((pushText cfg st chunk src).textStarted = true ↔
      (st.textStarted = true ∨ chunk ≠ [])) := by
  by_cases hc : chunk = [] <;> by_cases hs : st.textStarted = true <;>
    simp [pushText, ensureTextStart, enqueue, hc, hs]

theorem pushText_frames (cfg : Config) (st : StreamSt) (chunk : List Char)
    (src : Option (List Char)) (h : chunk ≠ []) :
    (pushText cfg st chunk src).frames =
      st.frames ++ (if st.textStarted = true then [] else [Frame.startF .text]) ++
        [Frame.deltaF .text (srcTag cfg src chunk)] := by
  by_cases hs : st.textStarted = true <;>
    simp [pushText, ensureTextStart, enqueue, h, hs]

/-- State facts after processing a pure run of text deltas: the generation is
still open, the accumulated full value is the concatenation of the chunks,
and the text channel has started exactly when some chunk was non-empty. -/
theorem deltas_run (cfg : Config) : ∀ (ds : List (List Char)) (st : StreamSt),
    st.finished = false → st.clientClosed = false →
    ((deltasOnly ds).foldl (step cfg) st).finished = false ∧
    ((deltasOnly ds).foldl (step cfg) st).clientClosed = false ∧
    ((deltasOnly ds).foldl (step cfg) st).lastAgentMessage
      = st.lastAgentMessage ++ concatAll ds ∧
    (((deltasOnly ds).foldl (step cfg) st).textStarted = true ↔
      (st.textStarted = true ∨ concatAll ds ≠ [])) := by
  intro ds
  induction ds with
  | nil =>
    intro st hf hc
    simp [deltasOnly, concatAll, hf, hc]
  | cons d ds ih =>
    intro st hf hc
    have hstep : step cfg st (AdEvent.notif (Msg.agentMessageDelta d)) =
        handleNotif cfg st (Msg.agentMessageDelta d) := by
      simp [step, hc]
    have hcons : deltasOnly (d :: ds) = AdEvent.notif (Msg.agentMessageDelta d) :: deltasOnly ds := rfl
    rw [hcons, List.foldl_cons, hstep]
    by_cases hd : d = []
    · subst hd
      have hno : handleNotif cfg st (Msg.agentMessageDelta []) = st := by
        simp [handleNotif]
      rw [hno]
      obtain ⟨h1, h2, h3, h4⟩ := ih st hf hc
      refine ⟨h1, h2, ?_, ?_⟩
      · simpa [concatAll] using h3
      · simpa [concatAll] using h4
    · have hhn : handleNotif cfg st (Msg.agentMessageDelta d) =
          { pushText cfg st d (some "agent_message_delta".data) with
            lastAgentMessage :=
              (pushText cfg st d (some "agent_message_delta".data)).lastAgentMessage ++ d } := by
        simp [handleNotif, hd]
      obtain ⟨p1, p2, p3, p4⟩ := pushText_proj cfg st d (some "agent_message_delta".data)
      rw [hhn]
      obtain ⟨h1, h2, h3, h4⟩ := ih
        { pushText cfg st d (some "agent_message_delta".data) with
          lastAgentMessage :=
            (pushText cfg st d (some "agent_message_delta".data)).lastAgentMessage ++ d }
        (by simpa using p1.trans hf) (by simpa using p2.trans hc)
      refine ⟨h1, h2, ?_, ?_⟩
      · rw [h3]
        simp only [p3, concatAll, List.foldr_cons]
        rw [List.append_assoc]
      · rw [h4]
        have : ({ pushText cfg st d (some "agent_message_delta".data) with
            lastAgentMessage :=
              (pushText cfg st d (some "agent_message_delta".data)).lastAgentMessage ++ d
            } : StreamSt).textStarted = true ↔ (st.textStarted = true ∨ d ≠ []) := p4
        rw [this]
        constructor
        · rintro ((hst | hdne) | htail)
          · exact Or.inl hst
          · refine Or.inr ?_
            simp [concatAll, hdne]
          · refine Or.inr ?_
            simp only [concatAll, List.foldr_cons] at htail ⊢
            simp [List.append_eq_nil]
            intro _ hcon
            exact htail (by simp [hcon])
        · rintro (hst | hne)
          · exact Or.inl (Or.inl hst)
          · simp only [concatAll, List.foldr_cons] at hne
            by_cases hdn : d = []
            · refine Or.inr ?_
              simpa [concatAll, hdn] using hne
            · exact Or.inl (Or.inr hdn)

/-- **C3**: after any sequence of text deltas, a full-value `agent_message`
event whose value extends the accumulated text emits exactly the suffix
beyond the shared leading-character run as the next text delta — and nothing
when the suffix is empty — never re-emitting already-streamed leading text
(message-source tagging off, its default). -/
theorem c3_full_value_suffix (cfg : Config) (hsrc : cfg.includeMessageSource = false)
    (ds : List (List Char)) (rest : List Char) :
    textDeltas ((run cfg (deltasOnly ds ++
        [AdEvent.notif (Msg.agentMessage (concatAll ds ++ rest))])).frames) =
      textDeltas ((run cfg (deltasOnly ds)).frames) ++
        (if rest = [] then [] else [rest]) := by
  have happ : run cfg (deltasOnly ds ++
      [AdEvent.notif (Msg.agentMessage (concatAll ds ++ rest))]) =
      step cfg (run cfg (deltasOnly ds))
        (AdEvent.notif (Msg.agentMessage (concatAll ds ++ rest))) := by
    rw [run, run, List.foldl_append]
    rfl
  obtain ⟨hf, hc, hlast, hts⟩ := deltas_run cfg ds initSt rfl rfl
  rw [happ]
  have hstep : step cfg (run cfg (deltasOnly ds))
      (AdEvent.notif (Msg.agentMessage (concatAll ds ++ rest))) =
      handleNotif cfg (run cfg (deltasOnly ds)) (Msg.agentMessage (concatAll ds ++ rest)) := by
    have : (run cfg (deltasOnly ds)).clientClosed = false := hc
    simp [step, this]
  rw [hstep]
  set st := run cfg (deltasOnly ds) with hst
  have hlast' : st.lastAgentMessage = concatAll ds := by
    simpa [initSt] using hlast
  by_cases hv : (concatAll ds ++ rest : List Char) = []
  · have hcd : concatAll ds = [] := (List.append_eq_nil.mp hv).1
    have hrest : rest = [] := (List.append_eq_nil.mp hv).2
    have : handleNotif cfg st (Msg.agentMessage (concatAll ds ++ rest)) =
        { st with lastAgentMessage := [] } := by
      simp [handleNotif, hv]
    rw [this, hrest]
    simp
  · have hred : handleNotif cfg st (Msg.agentMessage (concatAll ds ++ rest)) =
        { (if ¬ st.textStarted = true then
            pushText cfg st (concatAll ds ++ rest) (some "agent_message".data)
          else
            if (concatAll ds ++ rest).drop
                (sharedPrefixLength st.lastAgentMessage (concatAll ds ++ rest)) ≠ [] then
              pushText cfg st
                ((concatAll ds ++ rest).drop
                  (sharedPrefixLength st.lastAgentMessage (concatAll ds ++ rest)))
                (some "agent_message_delta_from_full".data)
            else st) with
          lastAgentMessage := concatAll ds ++ rest } := by
      simp [handleNotif, hv]
    rw [hred]
    have hdrop : (concatAll ds ++ rest).drop
        (sharedPrefixLength st.lastAgentMessage (concatAll ds ++ rest)) = rest := by
      rw [hlast', sharedPrefixLength_append, List.drop_left]
    by_cases hstart : st.textStarted = true
    · rw [if_neg (by simp [hstart])]
      rw [hdrop]
      by_cases hrest : rest = []
      · rw [if_neg (by simp [hrest])]
        simp [hrest]
      · rw [if_pos hrest]
        have := pushText_frames cfg st rest (some "agent_message_delta_from_full".data) hrest
        show textDeltas (pushText cfg st rest (some "agent_message_delta_from_full".data)).frames
          = _
        rw [this, if_pos hstart]
        simp [textDeltas_append, srcTag, hsrc, textDeltas, hrest]
    · rw [if_pos (by simp [hstart])]
      have hcd : concatAll ds = [] := by
        by_contra hne
        exact hstart (hts.mpr (Or.inr hne))
      have hrest : rest ≠ [] := by
        intro hr
        exact hv (by simp [hcd, hr])
      have hval : (concatAll ds ++ rest : List Char) = rest := by simp [hcd]
      have := pushText_frames cfg st (concatAll ds ++ rest)
        (some "agent_message".data) (by simpa [hval] using hrest)
      show textDeltas (pushText cfg st (concatAll ds ++ rest)
        (some "agent_message".data)).frames = _
      rw [this, if_neg (by simp [hstart])]
      simp [textDeltas_append, srcTag, hsrc, textDeltas, hval, hrest]

/-- Concrete deltas for the C3 witness. -/
def c3Deltas : List (List Char) := ["He".data]

theorem c3_full_value_suffix_witness :
    (defaultCfg.includeMessageSource = false) ∧
    textDeltas ((run defaultCfg (deltasOnly c3Deltas ++
        [AdEvent.notif (Msg.agentMessage (concatAll c3Deltas ++ "llo".data))])).frames) =
      textDeltas ((run defaultCfg (deltasOnly c3Deltas)).frames) ++
        (if ("llo".data : List Char) = [] then [] else ["llo".data]) :=
  ⟨rfl, c3_full_value_suffix defaultCfg rfl c3Deltas "llo".data⟩

/-! ## Claim C4: reasoning de-duplication

`pushReasoning` is fed one chunk at a time (`agent_reasoning_delta` chunks,
full-value suffixes, section-break newlines); `StreamState.pushReasoning`
duplicates the same logic.  The enqueued delta is the raw chunk itself when
message-source tagging is off (its default; `StreamState.pushDelta` ignores
the source outright), which `source := none` models. -/

/-- Feed a sequence of reasoning chunks through `pushReasoning`. -/
def pushChunks (cfg : Config) (st : StreamSt) (cs : List (List Char)) : StreamSt :=
  cs.foldl (fun s c => pushReasoning cfg s c none) st

/-- The reasoning-channel delta payloads among a frame list, in order. -/
def reasoningDeltas (fs : List Frame) : List (List Char) :=
  fs.filterMap fun f => match f with | .deltaF .reasoning s => some s | _ => none

theorem reasoningDeltas_append (fs gs : List Frame) :
    reasoningDeltas (fs ++ gs) = reasoningDeltas fs ++ reasoningDeltas gs :=
  List.filterMap_append fs gs _

/-- Two consecutively emitted reasoning deltas never have equal non-empty
normalized forms. -/
def dedupOk (a b : List Char) : Prop :=
  ¬(normalizeReasoning b ≠ [] ∧ normalizeReasoning a = normalizeReasoning b)

/-- The suppression condition exactly as the claim states it: the normalized
form is empty and the chunk is a bare newline identical to the previous raw
chunk, or the normalized form is non-empty and equals the previous emitted
normalized form, or the normalized form is empty and the raw chunk equals
the previous raw chunk. -/
def suppressSpec (st : StreamSt) (chunk : List Char) : Prop :=
  (normalizeReasoning chunk = [] ∧ chunk = ['\n'] ∧ st.lastReasoningChunk = ['\n']) ∨
  (normalizeReasoning chunk ≠ [] ∧ normalizeReasoning chunk = st.lastReasoningNormalized) ∨
  (normalizeReasoning chunk = [] ∧ st.lastReasoningChunk = chunk)

instance (st : StreamSt) (chunk : List Char) : Decidable (suppressSpec st chunk) := by
  unfold suppressSpec
  infer_instance

/-- One `pushReasoning` call on a non-empty chunk with reasoning enabled:
suppressed exactly under `suppressSpec`, otherwise emitted with the tracker
updates of the source. -/
theorem pushReasoning_step (cfg : Config) (hr : cfg.includeReasoning = true)
    (st : StreamSt) (c : List Char) (hc : c ≠ []) :
    (suppressSpec st c → pushReasoning cfg st c none = st) ∧
    (¬ suppressSpec st c →
      (pushReasoning cfg st c none).frames =
        st.frames ++ (if st.reasoningStarted = true then [] else [Frame.startF .reasoning]) ++
          [Frame.deltaF .reasoning c] ∧
      (pushReasoning cfg st c none).lastReasoningChunk = c ∧
      (pushReasoning cfg st c none).lastReasoningNormalized =
        (if normalizeReasoning c = [] then st.lastReasoningNormalized
         else normalizeReasoning c)) := by
  have hguard : ¬(c = [] ∨ cfg.includeReasoning = false) := by
    simp [hc, hr]
  constructor
  · intro hs
    rw [pushReasoning, if_neg hguard]
    rcases hs with h1 | h2 | h3
    · rw [if_pos h1]
    · rw [if_neg ?_, if_pos h2]
      rintro ⟨hn, _, hlast⟩
      exact absurd hn (by simpa using h2.1)
    · by_cases h1 : normalizeReasoning c = [] ∧ c = ['\n'] ∧ st.lastReasoningChunk = ['\n']
      · rw [if_pos h1]
      · rw [if_neg h1, if_neg ?_, if_pos h3]
        rintro ⟨hn, _⟩
        exact hn h3.1
  · intro hs
    rw [suppressSpec, not_or, not_or] at hs
    obtain ⟨hn1, hn2, hn3⟩ := hs
    rw [pushReasoning, if_neg hguard, if_neg hn1, if_neg hn2, if_neg hn3]
    refine ⟨?_, rfl, ?_⟩
    · by_cases hrs : st.reasoningStarted = true <;>
        simp [ensureReasoningStart, enqueue, srcTag, hrs]
    · by_cases hnz : normalizeReasoning c = [] <;> simp [hnz]

/-- No-op-or-emit dichotomy of a single `pushReasoning` call, for arbitrary
chunks and configurations. -/
theorem pushReasoning_cases (cfg : Config) (st : StreamSt) (c : List Char) :
    pushReasoning cfg st c none = st ∨
    ((pushReasoning cfg st c none).frames =
        st.frames ++ (if st.reasoningStarted = true then [] else [Frame.startF .reasoning]) ++
          [Frame.deltaF .reasoning c] ∧
      ¬(normalizeReasoning c ≠ [] ∧ normalizeReasoning c = st.lastReasoningNormalized) ∧
      (pushReasoning cfg st c none).lastReasoningNormalized =
        (if normalizeReasoning c = [] then st.lastReasoningNormalized
         else normalizeReasoning c)) := by
  by_cases hguard : c = [] ∨ cfg.includeReasoning = false
  · left; rw [pushReasoning, if_pos hguard]
  by_cases h1 : normalizeReasoning c = [] ∧ c = ['\n'] ∧ st.lastReasoningChunk = ['\n']
  · left; rw [pushReasoning, if_neg hguard, if_pos h1]
  by_cases h2 : normalizeReasoning c ≠ [] ∧ normalizeReasoning c = st.lastReasoningNormalized
  · left; rw [pushReasoning, if_neg hguard, if_neg h1, if_pos h2]
  by_cases h3 : normalizeReasoning c = [] ∧ st.lastReasoningChunk = c
  · left; rw [pushReasoning, if_neg hguard, if_neg h1, if_neg h2, if_pos h3]
  · right
    rw [pushReasoning, if_neg hguard, if_neg h1, if_neg h2, if_neg h3]
    refine ⟨?_, h2, ?_⟩
    · by_cases hrs : st.reasoningStarted = true <;>
        simp [ensureReasoningStart, enqueue, srcTag, hrs]
    · by_cases hnz : normalizeReasoning c = [] <;> simp [hnz]

theorem reasoningDeltas_startSeg (b : Bool) :
    reasoningDeltas (if b = true then [] else [Frame.startF .reasoning]) = [] := by
  cases b <;> simp [reasoningDeltas]

/-- The de-duplication invariant: emitted reasoning deltas form a
`dedupOk`-chain, and the last emitted delta's normalized form, when
non-empty, is the `lastReasoningNormalized` tracker. -/
theorem pushChunks_chain (cfg : Config) : ∀ (cs : List (List Char)) (st : StreamSt),
    List.Chain' dedupOk (reasoningDeltas st.frames) →
    (∀ last, (reasoningDeltas st.frames).getLast? = some last →
      normalizeReasoning last = [] ∨
        normalizeReasoning last = st.lastReasoningNormalized) →
    List.Chain' dedupOk (reasoningDeltas (pushChunks cfg st cs).frames) ∧
    (∀ last, (reasoningDeltas (pushChunks cfg st cs).frames).getLast? = some last →
      normalizeReasoning last = [] ∨
        normalizeReasoning last = (pushChunks cfg st cs).lastReasoningNormalized) := by
  intro cs
  induction cs with
  | nil => intro st hchain hlast; exact ⟨hchain, hlast⟩
  | cons c cs ih =>
    intro st hchain hlast
    have hfold : pushChunks cfg st (c :: cs) =
        pushChunks cfg (pushReasoning cfg st c none) cs := rfl
    rw [hfold]
    rcases pushReasoning_cases cfg st c with heq | ⟨hfr, hnot2, hnorm⟩
    · rw [heq]
      exact ih st hchain hlast
    · apply ih
      · rw [hfr, reasoningDeltas_append, reasoningDeltas_append,
          reasoningDeltas_startSeg]
        have hsingle : reasoningDeltas [Frame.deltaF .reasoning c] = [c] := by
          simp [reasoningDeltas]
        rw [List.append_nil, hsingle]
        apply List.Chain'.append hchain (by simp)
        intro x hx y hy
        simp only [List.head?_cons, Option.mem_def, Option.some.injEq] at hy
        subst hy
        have hx' := hlast x (by simpa using hx)
        rintro ⟨hnc, hxc⟩
        rcases hx' with hx0 | hxn
        · exact hnc (hxc ▸ hx0)
        · exact hnot2 ⟨hnc, hxc ▸ hxn⟩
      · intro last hl
        rw [hfr, reasoningDeltas_append, reasoningDeltas_append,
          reasoningDeltas_startSeg, List.append_nil] at hl
        have hsingle : reasoningDeltas [Frame.deltaF .reasoning c] = [c] := by
          simp [reasoningDeltas]
        rw [hsingle, List.getLast?_concat] at hl
        obtain rfl : last = c := by simpa using hl.symm
        by_cases hnz : normalizeReasoning last = []
        · exact Or.inl hnz
        · right
          rw [hnorm, if_neg hnz]

/-- **C4**: over any sequence of reasoning chunks from the initial state, no
two consecutively emitted reasoning deltas have equal non-empty normalized
forms; and a further non-empty chunk is suppressed exactly under the claimed
condition (`suppressSpec`), an emitted chunk is appended verbatim to the
emitted deltas and updates the last-raw tracker, and it updates the
last-normalized tracker exactly when its normalized form is non-empty. -/
theorem c4_reasoning_dedup (cfg : Config) (hr : cfg.includeReasoning = true)
    (cs : List (List Char)) (c : List Char) (hc : c ≠ []) :
    List.Chain' dedupOk (reasoningDeltas (pushChunks cfg initSt cs).frames) ∧
    (suppressSpec (pushChunks cfg initSt cs) c →
      pushReasoning cfg (pushChunks cfg initSt cs) c none = pushChunks cfg initSt cs) ∧
    (¬ suppressSpec (pushChunks cfg initSt cs) c →
      reasoningDeltas (pushReasoning cfg (pushChunks cfg initSt cs) c none).frames =
        reasoningDeltas (pushChunks cfg initSt cs).frames ++ [c] ∧
      (pushReasoning cfg (pushChunks cfg initSt cs) c none).lastReasoningChunk = c ∧
      (normalizeReasoning c ≠ [] →
        (pushReasoning cfg (pushChunks cfg initSt cs) c none).lastReasoningNormalized =
          normalizeReasoning c) ∧
      (normalizeReasoning c = [] →
        (pushReasoning cfg (pushChunks cfg initSt cs) c none).lastReasoningNormalized =
          (pushChunks cfg initSt cs).lastReasoningNormalized)) := by
  obtain ⟨hchain, _⟩ := pushChunks_chain cfg cs initSt (by simp [initSt, reasoningDeltas])
    (by intro last hl; simp [initSt, reasoningDeltas] at hl)
  obtain ⟨hsup, hemit⟩ := pushReasoning_step cfg hr (pushChunks cfg initSt cs) c hc
  refine ⟨hchain, hsup, ?_⟩
  intro hns
  obtain ⟨hfr, hlastc, hnorm⟩ := hemit hns
  refine ⟨?_, hlastc, ?_, ?_⟩
  · rw [hfr, reasoningDeltas_append, reasoningDeltas_append, reasoningDeltas_startSeg,
      List.append_nil]
    simp [reasoningDeltas]
  · intro hnz
    rw [hnorm, if_neg hnz]
  · intro hz
    rw [hnorm, if_pos hz]

/-- Concrete chunks for the C4 witness: a repeated reasoning line. -/
def c4Chunks : List (List Char) := ["alpha".data, "alpha".data]

theorem c4_reasoning_dedup_witness :
    (defaultCfg.includeReasoning = true ∧ ("beta".data : List Char) ≠ []) ∧
    (List.Chain' dedupOk (reasoningDeltas (pushChunks defaultCfg initSt c4Chunks).frames) ∧
      (suppressSpec (pushChunks defaultCfg initSt c4Chunks) "beta".data →
        pushReasoning defaultCfg (pushChunks defaultCfg initSt c4Chunks) "beta".data none =
          pushChunks defaultCfg initSt c4Chunks) ∧
      (¬ suppressSpec (pushChunks defaultCfg initSt c4Chunks) "beta".data →
        reasoningDeltas (pushReasoning defaultCfg (pushChunks defaultCfg initSt c4Chunks)
            "beta".data none).frames =
          reasoningDeltas (pushChunks defaultCfg initSt c4Chunks).frames ++ ["beta".data] ∧
        (pushReasoning defaultCfg (pushChunks defaultCfg initSt c4Chunks)
            "beta".data none).lastReasoningChunk = "beta".data ∧
        (normalizeReasoning "beta".data ≠ [] →
          (pushReasoning defaultCfg (pushChunks defaultCfg initSt c4Chunks)
              "beta".data none).lastReasoningNormalized = normalizeReasoning "beta".data) ∧
        (normalizeReasoning "beta".data = [] →
          (pushReasoning defaultCfg (pushChunks defaultCfg initSt c4Chunks)
              "beta".data none).lastReasoningNormalized =
            (pushChunks defaultCfg initSt c4Chunks).lastReasoningNormalized))) :=
  ⟨⟨rfl, by decide⟩, c4_reasoning_dedup defaultCfg rfl c4Chunks "beta".data (by decide)⟩

/-! ## Claim C5: command-output chunk decoding -/

/-- The delta a command-output chunk produces at the emission site
(`if (decoded) pushExecText(decoded)` plus `pushExecText`'s empty-chunk
guard): the decoded chunk when `decodeExecChunk` accepts it and it is
non-empty, else nothing. -/
def execDeltaOf (raw : List Char) : Option (List Char) :=
  match decodeExecChunk raw with
  | some d => if d = [] then none else some d
  | none => none

/-- The emission rule in the claim's words: after removing all whitespace,
if the remainder's length is a positive multiple of 4 and matches the base64
alphabet and its base64 decoding is non-empty printable text, the decoded
text is used; otherwise the raw chunk is used if it itself is printable
text (an empty raw chunk produces no delta); otherwise the chunk is
dropped. -/
def execDeltaSpec (raw : List Char) : Option (List Char) :=
  let cleaned := raw.filter fun c => !(isJsSpace c)
  let decoded := utf8Decode (b64DecodeGroups cleaned)
  if 0 < cleaned.length ∧ cleaned.length % 4 = 0 ∧ base64PatternTest cleaned ∧
      decoded ≠ [] ∧ isLikelyText decoded then some decoded
  else if isLikelyText raw then (if raw = [] then none else some raw) else none

theorem decodeExecChunk_eq (raw : List Char) (h0 : raw ≠ []) :
    decodeExecChunk raw =
      if 0 < (raw.filter fun c => !(isJsSpace c)).length ∧
          (raw.filter fun c => !(isJsSpace c)).length % 4 = 0 ∧
          base64PatternTest (raw.filter fun c => !(isJsSpace c)) ∧
          utf8Decode (b64DecodeGroups (raw.filter fun c => !(isJsSpace c))) ≠ [] ∧
          isLikelyText (utf8Decode (b64DecodeGroups (raw.filter fun c => !(isJsSpace c))))
      then some (utf8Decode (b64DecodeGroups (raw.filter fun c => !(isJsSpace c))))
      else if isLikelyText raw then some raw else none := by
  simp only [decodeExecChunk, if_neg h0]
  by_cases hb : 0 < (raw.filter fun c => !(isJsSpace c)).length ∧
      (raw.filter fun c => !(isJsSpace c)).length % 4 = 0 ∧
      base64PatternTest (raw.filter fun c => !(isJsSpace c))
  · by_cases hg : utf8Decode (b64DecodeGroups (raw.filter fun c => !(isJsSpace c))) ≠ [] ∧
        isLikelyText (utf8Decode (b64DecodeGroups (raw.filter fun c => !(isJsSpace c))))
    · rw [if_pos hb, if_pos hg, if_pos ⟨hb.1, hb.2.1, hb.2.2, hg.1, hg.2⟩]
    · have hns : ¬(0 < (raw.filter fun c => !(isJsSpace c)).length ∧
          (raw.filter fun c => !(isJsSpace c)).length % 4 = 0 ∧
          base64PatternTest (raw.filter fun c => !(isJsSpace c)) ∧
          utf8Decode (b64DecodeGroups (raw.filter fun c => !(isJsSpace c))) ≠ [] ∧
          isLikelyText (utf8Decode (b64DecodeGroups (raw.filter fun c => !(isJsSpace c))))) :=
        fun hfull => hg ⟨hfull.2.2.2.1, hfull.2.2.2.2⟩
      rw [if_pos hb, if_neg hg, if_neg hns]
  · have hns : ¬(0 < (raw.filter fun c => !(isJsSpace c)).length ∧
        (raw.filter fun c => !(isJsSpace c)).length % 4 = 0 ∧
        base64PatternTest (raw.filter fun c => !(isJsSpace c)) ∧
        utf8Decode (b64DecodeGroups (raw.filter fun c => !(isJsSpace c))) ≠ [] ∧
        isLikelyText (utf8Decode (b64DecodeGroups (raw.filter fun c => !(isJsSpace c))))) :=
      fun hfull => hb ⟨hfull.1, hfull.2.1, hfull.2.2.1⟩
    rw [if_neg hb, if_neg hns]

/-- **C5**: a command-output chunk is processed exactly as the claim
describes — strict whitespace-tolerant base64 with a printable-text check on
the decoded bytes, raw fallback only for printable text, dropped otherwise;
in particular `"SGVsbG8=\n"` yields `"Hello"` and a chunk containing a
literal NUL byte yields no delta. -/
theorem c5_exec_chunk (raw : List Char) :
    execDeltaOf raw = execDeltaSpec raw ∧
    execDeltaOf "SGVsbG8=\n".data = some "Hello".data ∧
    execDeltaOf "ab\x00".data = none := by
  refine ⟨?_, by decide, by decide⟩
  by_cases h0 : raw = []
  · subst h0
    decide
  · rw [execDeltaOf.eq_def, decodeExecChunk_eq raw h0]
    by_cases hfull : 0 < (raw.filter fun c => !(isJsSpace c)).length ∧
        (raw.filter fun c => !(isJsSpace c)).length % 4 = 0 ∧
        base64PatternTest (raw.filter fun c => !(isJsSpace c)) ∧
        utf8Decode (b64DecodeGroups (raw.filter fun c => !(isJsSpace c))) ≠ [] ∧
        isLikelyText (utf8Decode (b64DecodeGroups (raw.filter fun c => !(isJsSpace c))))
    · rw [if_pos hfull]
      dsimp only
      rw [execDeltaSpec, if_pos hfull, if_neg hfull.2.2.2.1]
    · rw [if_neg hfull]
      rw [execDeltaSpec]
      by_cases hlike : isLikelyText raw = true
      · rw [if_pos hlike]
        dsimp only
        rw [if_neg hfull, if_pos hlike, if_neg h0]
      · rw [if_neg hlike]
        dsimp only
        rw [if_neg hfull, if_neg hlike]

/-! ## The MCP client (`CodexMCPClient`, `src/codexClient.ts`)

The transport/correlator: request-id assignment (`sendRequest`), the pending
map keyed by `toRequestKey`, inbound-line handling, transport-fatal error
handling, cancellation, and the initialize handshake.  Mutable instance
state becomes an explicit record; each promise's caller-visible settlement
is tracked per request id (`completions`), settling at most once as a
promise does.  Opaque payloads (result values, error messages, stderr text,
the `JSON.stringify` rendering of an RPC error's `data`) are plain
`String`s. -/

/-- Caller-visible settlement of one request's promise.  `abortedReq` is the
`DOMException("Aborted", "AbortError")` rejection — a distinguished
constructor, unlike ordinary `rejectedErr` failures. -/
inductive Completion
  | pending
  | resolvedOk (result : Option String)
  | rejectedErr (message : String)
  | abortedReq
deriving DecidableEq, Repr

/-- A message written to the child's stdin (`writeMessage`). -/
inductive SentMsg
  | request (id : Nat) (method : String)
  | notifMsg (method : String) (requestId : Option Nat)
deriving DecidableEq, Repr

/-- A response's `id` field: number or string. -/
inductive RespId
  | num (n : Nat)
  | str (s : String)
deriving DecidableEq, Repr

/-- `toRequestKey` (types.ts lines 56-58):
`typeof id === "string" ? id : String(id)`. -/
def toRequestKey : RespId → String
  | .num n => natKey n
  | .str s => s

/-- Body of an inbound response: a result or an RPC error object (`data`
carried in its `JSON.stringify` rendering). -/
inductive RespBody
  | ok (result : Option String)
  | err (message : String) (data : Option String)
deriving DecidableEq, Repr

/-- An inbound stdout line as `handleLine` classifies it.  Blank lines and
lines parsing to a non-object are both exact no-ops (`notObject`); an object
with neither `id` nor `method` is `otherObject`. -/
inductive InMsg
  | unparsable
  | notObject
  | response (id : RespId) (body : RespBody)
  | notifIn (method : String)
  | otherObject
deriving DecidableEq, Repr

/-- The client instance state, plus observable logs: messages written
(`sent`), error-handler invocations (`errored`), notification dispatches
(`notified`), exit-handler invocations (`exits`). -/
structure ClientSt where
  pending : List (String × Nat)
  completions : Nat → Completion
  abortKeys : List String
  closed : Bool
  requestCounter : Nat
  sent : List SentMsg
  errored : List String
  notified : List String
  exits : List (Option Int × Option String)
  stderrBuf : String
  inited : Bool

/-- A freshly constructed client.  (`completions` maps ids that have no
promise yet to `pending`; only ids below `requestCounter` are ever
queried.) -/
def initialClient : ClientSt :=
  ⟨[], fun _ => .pending, [], false, 0, [], [], [], [], "", false⟩

/-- Settle request `id`'s promise: a promise settles at most once, so a
non-`pending` completion never changes. -/
def settle (st : ClientSt) (id : Nat) (c : Completion) : ClientSt :=
  { st with completions := fun j =>
      if j = id ∧ st.completions id = Completion.pending then c else st.completions j }

/-- `writeMessage` (lines 282-286): silently dropped once closed. -/
def writeMessage (st : ClientSt) (m : SentMsg) : ClientSt :=
  if st.closed then st else { st with sent := st.sent ++ [m] }

/-- `sendRequest` (lines 224-271).  `hasAbort` models passing an
`abortSignal`, `preAborted` its `aborted` flag at call time: a pre-aborted
signal runs `onAbort` *before* the pending entry is registered and before
the request is written — delete (a no-op), best-effort `cancelled`
notification, reject with the abort error, and return without sending. -/
def sendRequest (st : ClientSt) (method : String) (hasAbort preAborted : Bool) :
    Nat × ClientSt :=
  let id := st.requestCounter
  let key := natKey id
  let st1 := { st with requestCounter := id + 1 }
  if hasAbort ∧ preAborted then
    let st2 := { st1 with pending := st1.pending.filter fun p => p.1 ≠ key }
    let st3 := writeMessage st2 (.notifMsg "notifications/cancelled" (some id))
    (id, settle st3 id .abortedReq)
  else
    let st2 := if hasAbort then { st1 with abortKeys := st1.abortKeys ++ [key] } else st1
    let st3 := { st2 with pending := st2.pending ++ [(key, id)] }
    (id, writeMessage st3 (.request id method))

/-- The `onAbort` listener for request `id` firing later (once-only, and
removed by `cleanup` when the promise settles): remove the pending entry,
best-effort send `notifications/cancelled` carrying the request id, reject
with the distinguished abort error. -/
def fireAbort (st : ClientSt) (id : Nat) : ClientSt :=
  let key := natKey id
  if key ∈ st.abortKeys then
    let st1 := { st with abortKeys := st.abortKeys.filter (· ≠ key),
                         pending := st.pending.filter fun p => p.1 ≠ key }
    let st2 := writeMessage st1 (.notifMsg "notifications/cancelled" (some id))
    settle st2 id .abortedReq
  else st

/-- The message of the `Error` built from an RPC error object (lines
182-189): `data ? `${message}: ${JSON.stringify(data)}` : message`. -/
def rpcErrorMessage (message : String) (data : Option String) : String :=
  match data with
  | some d => message ++ ": " ++ d
  | none => message

/-- The `JSON.parse` failure surfaced by `handleLine`; the `SyntaxError`'s
text is engine-specific and opaque to the client, modelled as a constant. -/
def parseErrorMessage : String := "Failed to parse MCP message"

/-- The per-entry rejection pass of `handleError` (lines 206-209): for each
pending entry, `cleanup()` (remove its abort listener) and reject with the
same error. -/
def rejectAllPending (st : ClientSt) (msg : String) : ClientSt :=
  st.pending.foldl
    (fun s p =>
      settle { s with abortKeys := s.abortKeys.filter (· ≠ p.1) } p.2 (.rejectedErr msg))
    st

/-- `handleError` (lines 203-212): no-op once closed; otherwise invoke the
error handlers, reject every pending entry with the same error, clear the
map, and mark the session closed (the source's statement sequence, flattened
into one expression). -/
def handleError (st : ClientSt) (msg : String) : ClientSt :=
  if st.closed then st
  else
    { rejectAllPending { st with errored := st.errored ++ [msg] } msg with
      pending := [], closed := true }

/-- The exit error's message (lines 216-219):
`codex mcp-server exited with code ${code ?? "null"}${signal ? ` signal
${signal}` : ""}${stderr ? `\n${stderr}` : ""}`. -/
def exitMessage (code : Option Int) (signal : Option String) (stderr : String) : String :=
  "codex mcp-server exited with code " ++
    (match code with | some c => toString c | none => "null") ++
    (match signal with | some s => " signal " ++ s | none => "") ++
    (if stderr = "" then "" else "\n" ++ stderr)

/-- `handleExit` (lines 214-222): no-op once closed; otherwise build the
exit error from the buffered stderr, route it through `handleError`, then
invoke the exit handlers. -/
def handleExit (st : ClientSt) (code : Option Int) (signal : Option String) : ClientSt :=
  if st.closed then st
  else
    let st1 := handleError st (exitMessage code signal st.stderrBuf)
    { st1 with exits := st1.exits ++ [(code, signal)] }

/-- Look up a pending entry by its string key (`this.pending.get(key)`). -/
def findPending (st : ClientSt) (key : String) : Option Nat :=
  (st.pending.find? fun p => p.1 == key).map (·.2)

/-- `handleLine` (lines 160-201): parse failures go to `handleError`;
responses settle the pending entry found under `toRequestKey response.id`
(after its cleanup and removal) — or are ignored if none; messages carrying
`method` but no `id` are dispatched to the notification handlers. -/
def handleLine (st : ClientSt) (m : InMsg) : ClientSt :=
  match m with
  | .unparsable => handleError st parseErrorMessage
  | .notObject => st
  | .response rid body =>
    let key := toRequestKey rid
    match findPending st key with
    | none => st
    | some id =>
      let st1 := { st with abortKeys := st.abortKeys.filter (· ≠ key),
                           pending := st.pending.filter fun p => p.1 ≠ key }
      match body with
      | .err message data => settle st1 id (.rejectedErr (rpcErrorMessage message data))
      | .ok result => settle st1 id (.resolvedOk result)
  | .notifIn method => { st with notified := st.notified ++ [method] }
  | .otherObject => st

/-- The `initialize` handshake (lines 70-83 and 140-158) on the happy path
where the response arrives: at most one in-flight attempt, a no-op once
initialized; otherwise send the `initialize` request (consuming a request
id), await its response, then send the `notifications/initialized`
notification.  (The awaited response settles id 0's promise but allocates no
ids, which is all the id-assignment claims observe.) -/
def initHandshake (st : ClientSt) : ClientSt :=
  if st.inited then st
  else
    let st1 := (sendRequest st "initialize" false false).2
    let st2 := writeMessage st1 (.notifMsg "notifications/initialized" none)
    { st2 with inited := true }

/-- `callCodex` (lines 85-111), projected to its request-id assignment:
`await this.initialize()` (which sends the handshake request on a fresh
session), then `sendRequest("tools/call", …)`, returning the assigned id. -/
def callCodexIds (st : ClientSt) : Nat × ClientSt :=
  let st1 := initHandshake st
  sendRequest st1 "tools/call" false false

/-! ## Sessions with `n` outstanding calls -/

/-- A session on which `n` requests have been issued (none settled): the
canonical "n concurrently outstanding calls" state. -/
def sendN : Nat → ClientSt
  | 0 => initialClient
  | n + 1 => (sendRequest (sendN n) "tools/call" false false).2

theorem sendN_spec (n : Nat) :
    (sendN n).pending = (List.range n).map (fun j => (natKey j, j)) ∧
    (sendN n).closed = false ∧
    (sendN n).requestCounter = n ∧
    (sendN n).abortKeys = [] ∧
    (sendN n).stderrBuf = "" ∧
    (sendN n).completions = (fun _ => Completion.pending) ∧
    (sendN n).errored = [] ∧
    (sendN n).notified = [] := by
  induction n with
  | zero => exact ⟨rfl, rfl, rfl, rfl, rfl, rfl, rfl, rfl⟩
  | succ n ih =>
    obtain ⟨h1, h2, h3, h4, h5, h6, h7, h8⟩ := ih
    refine ⟨?_, ?_, ?_, ?_, ?_, ?_, ?_, ?_⟩ <;>
      simp [sendN, sendRequest, writeMessage, h1, h2, h3, h4, h5, h6, h7, h8,
        List.range_succ]

/-- The settlement fold of `handleError` over an explicit entry list:
every listed id whose promise is still pending is rejected with the shared
error; nothing else changes observably. -/
def settleFold (msg : String) (l : List (String × Nat)) (st : ClientSt) : ClientSt :=
  l.foldl
    (fun s p =>
      settle { s with abortKeys := s.abortKeys.filter (· ≠ p.1) } p.2 (.rejectedErr msg))
    st

theorem rejectAllPending_eq_settleFold (st : ClientSt) (msg : String) :
    rejectAllPending st msg = settleFold msg st.pending st := rfl

theorem settleFold_spec (msg : String) :
    ∀ (l : List (String × Nat)) (st : ClientSt),
      (settleFold msg l st).completions = (fun j =>
        if j ∈ l.map (·.2) ∧ st.completions j = Completion.pending then
          Completion.rejectedErr msg
        else st.completions j) ∧
      (settleFold msg l st).pending = st.pending ∧
      (settleFold msg l st).closed = st.closed ∧
      (settleFold msg l st).sent = st.sent ∧
      (settleFold msg l st).errored = st.errored ∧
      (settleFold msg l st).notified = st.notified := by
  intro l
  induction l with
  | nil =>
    intro st
    exact ⟨by funext j; simp [settleFold], rfl, rfl, rfl, rfl, rfl⟩
  | cons p l ih =>
    intro st
    have hfold : settleFold msg (p :: l) st =
        settleFold msg l
          (settle { st with abortKeys := st.abortKeys.filter (· ≠ p.1) } p.2
            (.rejectedErr msg)) := rfl
    obtain ⟨hc, hp, hcl, hse, her, hno⟩ := ih
      (settle { st with abortKeys := st.abortKeys.filter (· ≠ p.1) } p.2 (.rejectedErr msg))
    rw [hfold]
    refine ⟨?_, by rw [hp]; rfl, by rw [hcl]; rfl, by rw [hse]; rfl,
      by rw [her]; rfl, by rw [hno]; rfl⟩
    rw [hc]
    funext j
    by_cases hj : j = p.2
    · by_cases hpend : st.completions p.2 = Completion.pending
      · simp [settle, hj, hpend]
      · simp [settle, hj, hpend]
    · by_cases hm : j ∈ l.map (·.2) <;>
        by_cases hpend : st.completions j = Completion.pending <;>
        simp [settle, hj, hm, hpend]

/-- `handleError` on a session with `n` outstanding calls: the error is
surfaced on the hard-error channel, every outstanding call is rejected with
that same error, the map is cleared, the session closes. -/
theorem handleError_sendN (n : Nat) (msg : String) :
    (handleError (sendN n) msg).closed = true ∧
    (handleError (sendN n) msg).pending = [] ∧
    (handleError (sendN n) msg).errored = [msg] ∧
    (handleError (sendN n) msg).notified = [] ∧
    (handleError (sendN n) msg).completions = (fun j =>
      if j < n then Completion.rejectedErr msg else Completion.pending) := by
  obtain ⟨h1, h2, h3, h4, h5, h6, h7, h8⟩ := sendN_spec n
  have hopen : ¬ (sendN n).closed = true := by rw [h2]; exact Bool.noConfusion
  rw [handleError, if_neg hopen]
  obtain ⟨sc, sp, scl, sse, ser, sno⟩ := settleFold_spec msg
    ((sendN n).pending) { sendN n with errored := (sendN n).errored ++ [msg] }
  have hre : rejectAllPending { sendN n with errored := (sendN n).errored ++ [msg] } msg =
      settleFold msg ((sendN n).pending)
        { sendN n with errored := (sendN n).errored ++ [msg] } := rfl
  refine ⟨rfl, rfl, ?_, ?_, ?_⟩
  · show (rejectAllPending { sendN n with errored := (sendN n).errored ++ [msg] } msg).errored
      = [msg]
    rw [hre, ser]
    show (sendN n).errored ++ [msg] = [msg]
    rw [h7]
    rfl
  · show (rejectAllPending { sendN n with errored := (sendN n).errored ++ [msg] } msg).notified
      = []
    rw [hre, sno]
    exact h8
  · show (rejectAllPending { sendN n with errored := (sendN n).errored ++ [msg] } msg).completions
      = _
    rw [hre, sc]
    funext j
    have hmap : ((sendN n).pending.map (·.2)) = List.range n := by
      rw [h1, List.map_map]
      exact List.map_id (List.range n)
    rw [hmap]
    have hcj : ({ sendN n with errored := (sendN n).errored ++ [msg] }
        : ClientSt).completions = (sendN n).completions := rfl
    rw [hcj, h6]
    by_cases hj : j < n <;> simp [hj, List.mem_range]

theorem natKey_ne_of_lt {j n : Nat} (h : j < n) : natKey j ≠ natKey n := by
  intro he
  exact absurd (natKey_injective he) (by omega)

theorem findPending_sendN_top (n : Nat) : findPending (sendN n) (natKey n) = none := by
  obtain ⟨h1, _, _, _, _, _, _, _⟩ := sendN_spec n
  rw [findPending, h1]
  rw [List.find?_eq_none.mpr]
  · rfl
  · intro x hx
    rw [List.mem_map] at hx
    obtain ⟨j, hj, rfl⟩ := hx
    rw [List.mem_range] at hj
    simpa using natKey_ne_of_lt hj

theorem handleLine_response_of_no_pending (st : ClientSt) (rid : RespId) (body : RespBody)
    (h : findPending st (toRequestKey rid) = none) :
    handleLine st (.response rid body) = st := by
  simp [handleLine, h]

/-! ## Claims C6–C10 -/

/-- **C6 counterexample**: two generation calls (`callCodex`) issued on one
fresh session do *not* receive request ids 0 and 1 — the `initialize`
handshake request consumes id 0, so they receive ids 1 and 2. -/
theorem c6_counterexample :
    ¬ ((callCodexIds initialClient).1 = 0 ∧
       (callCodexIds (callCodexIds initialClient).2).1 = 1) := by
  decide

/-- **C6 (amended)**: request id assignment starts at 0 and increments by 1
per request within one session; on a fresh session the `initialize`
handshake takes id 0, and two generation calls issued afterwards receive
ids 1 and 2 respectively. -/
theorem c6_request_ids :
    (∀ (st : ClientSt) (method : String) (a b : Bool),
      (sendRequest st method a b).1 = st.requestCounter ∧
      (sendRequest st method a b).2.requestCounter = st.requestCounter + 1) ∧
    initialClient.requestCounter = 0 ∧
    (sendRequest initialClient "initialize" false false).1 = 0 ∧
    (callCodexIds initialClient).1 = 1 ∧
    (callCodexIds (callCodexIds initialClient).2).1 = 2 := by
  refine ⟨?_, rfl, rfl, by decide, by decide⟩
  intro st method a b
  constructor
  · rw [sendRequest]
    split <;> rfl
  · rw [sendRequest]
    split <;> dsimp only <;> rw [writeMessage] <;> split_ifs <;> rfl

/-- **C7 counterexample**: an unparsable inbound line does *not* leave the
session open with its pending call still pending — `handleLine` routes the
parse error through `handleError`, which rejects everything and closes the
session. -/
theorem c7_counterexample :
    ¬ ((handleLine (sendN 1) InMsg.unparsable).closed = false ∧
       (handleLine (sendN 1) InMsg.unparsable).completions 0 = Completion.pending) := by
  decide

/-- **C7 (amended)**: an unparsable inbound line surfaces the parse error
through the hard-error channel but is transport-fatal: every pending call is
rejected with that error and the session is marked closed; subsequent
inbound notifications are still dispatched to the notification handlers. -/
theorem c7_parse_error_fatal (n i : Nat) (hi : i < n) (method : String) :
    (handleLine (sendN n) InMsg.unparsable).errored = [parseErrorMessage] ∧
    (handleLine (sendN n) InMsg.unparsable).closed = true ∧
    (handleLine (sendN n) InMsg.unparsable).pending = [] ∧
    (handleLine (sendN n) InMsg.unparsable).completions i =
      Completion.rejectedErr parseErrorMessage ∧
    (handleLine (handleLine (sendN n) InMsg.unparsable) (.notifIn method)).notified =
      [method] := by
  obtain ⟨he1, he2, he3, he4, he5⟩ := handleError_sendN n parseErrorMessage
  have hline : handleLine (sendN n) InMsg.unparsable =
      handleError (sendN n) parseErrorMessage := rfl
  rw [hline]
  refine ⟨he3, he1, he2, ?_, ?_⟩
  · rw [he5]
    simp [hi]
  · show (handleError (sendN n) parseErrorMessage).notified ++ [method] = [method]
    rw [he4]
    rfl

theorem c7_parse_error_fatal_witness :
    ((0 : Nat) < 1) ∧
    ((handleLine (sendN 1) InMsg.unparsable).errored = [parseErrorMessage] ∧
      (handleLine (sendN 1) InMsg.unparsable).closed = true ∧
      (handleLine (sendN 1) InMsg.unparsable).pending = [] ∧
      (handleLine (sendN 1) InMsg.unparsable).completions 0 =
        Completion.rejectedErr parseErrorMessage ∧
      (handleLine (handleLine (sendN 1) InMsg.unparsable)
        (.notifIn "codex/event")).notified = ["codex/event"]) :=
  ⟨by decide, c7_parse_error_fatal 1 0 (by decide) "codex/event"⟩

/-- **C8**: a process exit with `n` outstanding calls rejects every pending
entry with the same exit error (its message rendering the exit code and
signal), closes the session so no further request is written, and a response
arriving afterwards for any id settles nothing — it leaves the state
untouched. -/
theorem c8_exit_rejects_all (n : Nat) (code : Option Int) (signal : Option String)
    (i : Nat) (hi : i < n) (rid : RespId) (body : RespBody) (method : String) :
    (handleExit (sendN n) code signal).closed = true ∧
    (handleExit (sendN n) code signal).completions i =
      Completion.rejectedErr (exitMessage code signal "") ∧
    (handleExit (sendN n) code signal).pending = [] ∧
    handleLine (handleExit (sendN n) code signal) (.response rid body) =
      handleExit (sendN n) code signal ∧
    (sendRequest (handleExit (sendN n) code signal) method false false).2.sent =
      (handleExit (sendN n) code signal).sent := by
  obtain ⟨h1, h2, h3, h4, h5, h6, h7, h8⟩ := sendN_spec n
  have hopen : ¬ (sendN n).closed = true := by rw [h2]; exact Bool.noConfusion
  have hx : handleExit (sendN n) code signal =
      { handleError (sendN n) (exitMessage code signal "") with
        exits := (handleError (sendN n) (exitMessage code signal "")).exits ++
          [(code, signal)] } := by
    rw [handleExit, if_neg hopen, h5]
  obtain ⟨he1, he2, he3, he4, he5⟩ := handleError_sendN n (exitMessage code signal "")
  have hcl : (handleExit (sendN n) code signal).closed = true := by rw [hx]; exact he1
  have hpd : (handleExit (sendN n) code signal).pending = [] := by rw [hx]; exact he2
  refine ⟨hcl, ?_, hpd, ?_, ?_⟩
  · rw [hx]
    show (handleError (sendN n) (exitMessage code signal "")).completions i = _
    rw [he5]
    simp [hi]
  · apply handleLine_response_of_no_pending
    rw [findPending, hpd]
    rfl
  · simp [sendRequest, writeMessage, hcl]

theorem c8_exit_rejects_all_witness :
    ((1 : Nat) < 3) ∧
    ((handleExit (sendN 3) (some 1) (some "SIGTERM")).closed = true ∧
      (handleExit (sendN 3) (some 1) (some "SIGTERM")).completions 1 =
        Completion.rejectedErr (exitMessage (some 1) (some "SIGTERM") "") ∧
      (handleExit (sendN 3) (some 1) (some "SIGTERM")).pending = [] ∧
      handleLine (handleExit (sendN 3) (some 1) (some "SIGTERM"))
          (.response (.num 1) (.ok (some "late"))) =
        handleExit (sendN 3) (some 1) (some "SIGTERM") ∧
      (sendRequest (handleExit (sendN 3) (some 1) (some "SIGTERM"))
          "tools/call" false false).2.sent =
        (handleExit (sendN 3) (some 1) (some "SIGTERM")).sent) :=
  ⟨by decide, c8_exit_rejects_all 3 (some 1) (some "SIGTERM") 1 (by decide)
    (.num 1) (.ok (some "late")) "tools/call"⟩

/-- The session of `sendN n` with one further call carrying an abort
signal: request id `n`, listener registered, response not yet arrived. -/
def abortSetup (n : Nat) : ClientSt := (sendRequest (sendN n) "tools/call" true false).2

/-- **C9**: when the cancellation token fires before a response arrives, the
pending entry is removed (others untouched), a `notifications/cancelled`
notification carrying the request id is written, the call is rejected with
the distinguished aborted completion, and a late response for that id leaves
the state entirely unchanged. -/
theorem c9_abort_cancels (n : Nat) (body : RespBody) :
    (fireAbort (abortSetup n) n).pending = (sendN n).pending ∧
    (fireAbort (abortSetup n) n).sent =
      (abortSetup n).sent ++ [SentMsg.notifMsg "notifications/cancelled" (some n)] ∧
    (fireAbort (abortSetup n) n).completions n = Completion.abortedReq ∧
    handleLine (fireAbort (abortSetup n) n) (.response (.num n) body) =
      fireAbort (abortSetup n) n := by
  obtain ⟨h1, h2, h3, h4, h5, h6, h7, h8⟩ := sendN_spec n
  have hsetup : abortSetup n =
      { sendN n with
        requestCounter := n + 1,
        abortKeys := (sendN n).abortKeys ++ [natKey n],
        pending := (sendN n).pending ++ [(natKey n, n)],
        sent := (sendN n).sent ++ [SentMsg.request n "tools/call"] } := by
    simp [abortSetup, sendRequest, writeMessage, h2, h3]
  have hkeymem : natKey n ∈ (abortSetup n).abortKeys := by
    rw [hsetup]
    show natKey n ∈ (sendN n).abortKeys ++ [natKey n]
    simp
  have hpendfilter : ((sendN n).pending ++ [(natKey n, n)]).filter
      (fun p => p.1 ≠ natKey n) = (sendN n).pending := by
    rw [List.filter_append]
    have hall : (sendN n).pending.filter (fun p => p.1 ≠ natKey n) = (sendN n).pending := by
      rw [List.filter_eq_self]
      intro x hx
      rw [h1, List.mem_map] at hx
      obtain ⟨j, hj, rfl⟩ := hx
      rw [List.mem_range] at hj
      simpa using natKey_ne_of_lt hj
    rw [hall]
    simp
  have hfa : fireAbort (abortSetup n) n =
      settle (writeMessage
        { abortSetup n with
          abortKeys := (abortSetup n).abortKeys.filter (· ≠ natKey n),
          pending := (abortSetup n).pending.filter fun p => p.1 ≠ natKey n }
        (.notifMsg "notifications/cancelled" (some n))) n .abortedReq := by
    rw [fireAbort, if_pos hkeymem]
  have hclosed2 : (abortSetup n).closed = false := by rw [hsetup]; exact h2
  have hpend2 : (abortSetup n).pending.filter (fun p => p.1 ≠ natKey n) =
      (sendN n).pending := by
    rw [hsetup]
    exact hpendfilter
  have hnotclosed : ¬ (abortSetup n).closed = true := by
    rw [hclosed2]
    exact Bool.noConfusion
  have hwm : writeMessage
      { abortSetup n with
        abortKeys := (abortSetup n).abortKeys.filter (· ≠ natKey n),
        pending := (abortSetup n).pending.filter fun p => p.1 ≠ natKey n }
      (.notifMsg "notifications/cancelled" (some n)) =
      { abortSetup n with
        abortKeys := (abortSetup n).abortKeys.filter (· ≠ natKey n),
        pending := (abortSetup n).pending.filter fun p => p.1 ≠ natKey n,
        sent := (abortSetup n).sent ++
          [SentMsg.notifMsg "notifications/cancelled" (some n)] } := by
    rw [writeMessage, if_neg hnotclosed]
  have hcompl : (abortSetup n).completions = (fun _ => Completion.pending) := by
    rw [hsetup]
    exact h6
  refine ⟨?_, ?_, ?_, ?_⟩
  · rw [hfa, hwm]
    show (abortSetup n).pending.filter (fun p => p.1 ≠ natKey n) = (sendN n).pending
    exact hpend2
  · rw [hfa, hwm]
    rfl
  · rw [hfa, hwm]
    show (if n = n ∧ _ = Completion.pending then Completion.abortedReq else _) = _
    rw [if_pos ⟨rfl, by rw [hcompl]⟩]
  · apply handleLine_response_of_no_pending
    show findPending (fireAbort (abortSetup n) n) (natKey n) = none
    have hpend3 : (fireAbort (abortSetup n) n).pending = (sendN n).pending := by
      rw [hfa, hwm]
      exact hpend2
    rw [findPending, hpend3, h1]
    rw [List.find?_eq_none.mpr]
    · rfl
    · intro x hx
      rw [List.mem_map] at hx
      obtain ⟨j, hj, rfl⟩ := hx
      rw [List.mem_range] at hj
      simpa using natKey_ne_of_lt hj

/-- **C10**: response-to-request matching is keyed on the string form of the
id — a response whose id is the string rendering of an outstanding numeric
request id behaves exactly as the numeric id would, for any session state
and any pending request; concretely, the string id `"3"` resolves pending
request 3. -/
theorem c10_string_id_matching (st : ClientSt) (n : Nat) (body : RespBody) :
    handleLine st (.response (.str (natKey n)) body) =
      handleLine st (.response (.num n) body) ∧
    (handleLine (sendN 4) (.response (.str "3") (.ok (some "r")))).completions 3 =
      Completion.resolvedOk (some "r") := by
  constructor
  · rfl
  · decide

end Codex
